import Mathlib

/-!
Distributed Game of Life: grid engine, worker turn loop, controller callback.

Shallow embedding of

* `src/distributed/gol/distributor.go` (package `gol`): `Slice`, `World`, `NewSlice`,
  `InitialCellState`, `CellState`, `NextStep`, `World.Run`, `GetAliveCellsCount`,
  `GetCellsChanged`, `LocalControl.TurnComplete`, and the live-cell loop of `distributor`;
* `src/distributed/gol_worker/gol_worker.go` (package `main`): `GolWorker`, `GameOfLife`,
  `Run`, `AliveCellsCount`, `KeyPress`;
* `src/distributed/stubs/stubs.go`: the message shapes.

Conventions.

* Go `int` is `Int`. No value in the modelled code comes near the 64-bit range (coordinates,
  a neighbour counter bounded by 8, a turn counter bounded by the budget), so no wrap-around
  is modelled.
* A Go run-time panic (index out of range, nil dereference, division by zero) is `none` in an
  `Option`-valued function, or the outcome `panicked` of a run.
* `[][]bool` is `List (List Bool)`; `s.Cells[x][y]` reads the outer list at `x` and the inner
  list at `y`, exactly as the source writes it.
* Goroutines spawned by a generation step read one buffer and write the other; the step is
  modelled by running the spawned tasks one after the other in spawn order, the join
  (`wg.Wait()`) being the end of that sequence.
* Channels and the remote peer are the environment of a run (`Env`): which case each `select`
  takes, whether dialling and each report call succeed. `fmt.Printf` is not modelled.
-/

namespace DDT

/-! ## Go primitives -/

/-- Go slice read `l[i]`: panics when `i` is negative or not below `len(l)`. -/
def index {α : Type} (l : List α) (i : Int) : Option α :=
  if i < 0 then none else l[i.toNat]?

/-- Go slice write `l[i] = v`: panics when `i` is negative or not below `len(l)`. -/
def store {α : Type} (l : List α) (i : Int) (v : α) : Option (List α) :=
  if 0 ≤ i ∧ i < (l.length : Int) then some (l.set i.toNat v) else none

/-- Go `a % b` on `int`: truncated remainder, panics on a zero divisor. -/
def goMod (a b : Int) : Option Int :=
  if b = 0 then none else some (Int.tmod a b)

/-- Go `make([]T, n)` filled with `v`: panics on a negative length. -/
def goMake {α : Type} (n : Int) (v : α) : Option (List α) :=
  if n < 0 then none else some (List.replicate n.toNat v)

/-- Go builtin `copy(dst, src)`: overwrites the first `min(len dst, len src)` elements. -/
def goCopy {α : Type} (dst src : List α) : List α :=
  src.take dst.length ++ dst.drop src.length

/-! ## Data model -/

/-- Modelled from the spec: `util.Cell` (package `util` is not among the sources), a
coordinate pair with the fields `X` and `Y` the sources use. -/
structure Cell where
  X : Int
  Y : Int
deriving DecidableEq, Repr

/-- Modelled from the spec: `gol.Params` (declared outside the given sources), with the four
fields the sources read. -/
structure Params where
  Turns : Int
  Threads : Int
  ImageWidth : Int
  ImageHeight : Int
deriving DecidableEq, Repr

/-- `gol.Slice`: one generation buffer. -/
structure Slice where
  Width : Int
  Height : Int
  Threads : Int
  Cells : List (List Bool)
deriving DecidableEq, Repr

/-- `gol.World`: the two generation buffers and the run parameters. -/
structure World where
  Width : Int
  Height : Int
  Turns : Int
  Threads : Int
  CurLattice : Slice
  PrevLattice : Slice
deriving DecidableEq, Repr

/-! ## Grid engine (`distributor.go`) -/

/-- `NewSlice`: `Height` rows of `Width` dead cells. -/
def NewSlice (p : Params) : Option Slice := do
  let rows ← goMake p.ImageHeight ([] : List Bool)
  let cells ← rows.mapM (fun _ => goMake p.ImageWidth false)
  pure { Width := p.ImageWidth, Height := p.ImageHeight, Threads := p.Threads, Cells := cells }

/-- The read `s.Cells[x][y]`. -/
def Slice.read (s : Slice) (x y : Int) : Option Bool := do
  let row ← index s.Cells x
  index row y

/-- The write `s.Cells[x][y] = alive`. -/
def Slice.write (s : Slice) (x y : Int) (alive : Bool) : Option Slice := do
  let row ← index s.Cells x
  let row2 ← store row y alive
  let cells ← store s.Cells x row2
  pure { s with Cells := cells }

/-- `Slice.InitialCellState`: guarded write. -/
def Slice.InitialCellState (s : Slice) (x y : Int) (alive : Bool) : Option Slice :=
  if x ≥ 0 ∧ x < s.Width ∧ y ≥ 0 ∧ y < s.Height then s.write x y alive else some s

/-- The statement `if v == bound || v == (-1) { v = (v + bound) % bound }` of `CellState`:
the new value of `v`. -/
def wrapCoord (v bound : Int) : Option Int :=
  if v = bound ∨ v = -1 then goMod (v + bound) bound else some v

/-- `Slice.CellState`: read with wrap-around of the coordinates `-1` and `Width` / `Height`. -/
def Slice.CellState (s : Slice) (x y : Int) : Option Bool :=
  if x ≥ 0 ∧ x < s.Width ∧ y ≥ 0 ∧ y < s.Height then s.read x y
  else
    (wrapCoord x s.Width).bind fun x2 =>
    (wrapCoord y s.Height).bind fun y2 =>
    s.read x2 y2

/-- The loop range `-1, 0, 1` of `row` and of `column` in `NextStep`. -/
def stepOffsets : List Int := [-1, 0, 1]

/-- `Slice.NextStep`: the two nested loops count `alive`; `CellState` is evaluated for all nine
offsets (it is the left operand of `&&`), the centre is excluded by the right operand. -/
def Slice.NextStep (s : Slice) (x y : Int) : Option Bool := do
  let alive ← stepOffsets.foldlM (fun (a : Nat) row =>
    stepOffsets.foldlM (fun (a : Nat) column => do
      let c ← s.CellState (x + row) (y + column)
      pure (if c && (row != 0 || column != 0) then a + 1 else a)) a) 0
  if alive = 3 then pure true
  else do
    let c ← s.CellState x y
    pure (c && alive == 2)

/-- The loop `for v := 0; v < n; v++`: the values `v` takes. -/
def upTo (n : Int) : List Int := (List.range n.toNat).map Int.ofNat

/-- The body of a spawned task, shared by `GolWorker.Run` and `World.Run`: for every `x`,
`PrevLattice.InitialCellState(x, y, CurLattice.NextStep(x, y))`. The task reads `cur` and
writes `prev`. -/
def rowTask (width : Int) (cur : Slice) (y : Int) (prev : Slice) : Option Slice :=
  (upTo width).foldlM (fun p x => do
    let v ← cur.NextStep x y
    p.InitialCellState x y v) prev

/-- The tasks `GolWorker.Run` spawns, each named by its argument `y`, in spawn order: for
every `y` below `Height` the inner loop runs `Threads` times and spawns a task for that same
`y` each time. -/
def GolWorker.spawned (w : World) : List Int :=
  (upTo w.Height).foldl (fun ts y => (upTo w.Threads).foldl (fun ts _ => ts ++ [y]) ts) []

/-- The body of `GolWorker.Run` on the world the worker points to: spawn the tasks, join
them, swap the two buffers. -/
def GolWorker.RunWorld (w : World) : Option World := do
  let prev ← (GolWorker.spawned w).foldlM (fun p y => rowTask w.Width w.CurLattice y p)
    w.PrevLattice
  pure { w with PrevLattice := w.CurLattice, CurLattice := prev }

/-- `World.GetAliveCellsCount`. -/
def World.GetAliveCellsCount (w : World) : Option Int :=
  (upTo w.Height).foldlM (fun count y =>
    (upTo w.Width).foldlM (fun count x => do
      let c ← w.CurLattice.CellState x y
      pure (if c then count + 1 else count)) count) 0

/-- `World.GetCellsChanged`. -/
def World.GetCellsChanged (w : World) : Option (List Cell) :=
  (upTo w.Height).foldlM (fun cells y =>
    (upTo w.Width).foldlM (fun cells x => do
      let c ← w.CurLattice.CellState x y
      let d ← w.PrevLattice.CellState x y
      pure (if c != d then cells ++ [{ X := x, Y := y }] else cells)) cells) []

/-- The live-cell list the controller builds for its final event (`distributor`, the loop
before `FinalTurnComplete`), here for any buffer. -/
def Slice.aliveCells (s : Slice) : Option (List Cell) :=
  (upTo s.Height).foldlM (fun cells y =>
    (upTo s.Width).foldlM (fun cells x => do
      let c ← s.CellState x y
      pure (if c then cells ++ [{ X := x, Y := y }] else cells)) cells) []

/-! ## Message shapes (`stubs.go`) -/

/-- `stubs.World`. -/
structure Stubs.World where
  Width : Int
  Height : Int
  Turns : Int
  Threads : Int
  Cells : List (List Bool)
deriving DecidableEq, Repr

/-- `stubs.GameOfLifeReq`. -/
structure Stubs.GameOfLifeReq where
  World : Stubs.World
deriving DecidableEq, Repr

/-- `stubs.GameOfLifeResp`. -/
structure Stubs.GameOfLifeResp where
  World : Stubs.World
  Turns : Int
deriving DecidableEq, Repr

/-- `stubs.TurnCompleteReq`. -/
structure Stubs.TurnCompleteReq where
  Turn : Int
  Cells : List Cell
deriving DecidableEq, Repr

/-- `stubs.AliveCellsCountResp`. -/
structure Stubs.AliveCellsCountResp where
  Count : Int
  Turn : Int
deriving DecidableEq, Repr

/-! ## Controller callback (`distributor.go`) -/

/-- Modelled from the spec: the events of package `gol` the callback sends (their declaration
is outside the given sources): a cell flip and a completed turn, with the fields the sources
set. -/
inductive Event where
  | CellFlipped (CompletedTurns : Int) (Cell : Cell)
  | TurnComplete (CompletedTurns : Int)
deriving DecidableEq, Repr

/-- `gol.LocalControl`; `currentTurn` is the controller variable the pointer refers to, the
`events` channel is the list of events a call returns. -/
structure LocalControl where
  turns : Int
  currentTurn : Int
deriving DecidableEq, Repr

/-- `LocalControl.TurnComplete`: the controller after the call and the events sent, in order.
The call always returns a nil error. -/
def LocalControl.TurnComplete (l : LocalControl) (req : Stubs.TurnCompleteReq) :
    LocalControl × List Event :=
  if req.Turn ≥ l.turns then (l, [])
  else
    ({ l with currentTurn := req.Turn },
     req.Cells.foldl (fun evs c => evs ++ [Event.CellFlipped req.Turn c]) []
       ++ [Event.TurnComplete req.Turn])

/-! ## Worker (`gol_worker.go`) -/

/-- `GolWorker`: the fields that hold data. The three channels are part of `Env`; the mutex
delimits the critical section of one loop iteration. -/
structure GolWorker where
  world : Option World
  pasused : Bool
  currentTurn : Int
deriving DecidableEq, Repr

/-- `GolWorker.Run`: dereferences `g.world` and runs one generation step on it. -/
def GolWorker.Run (g : GolWorker) : Option GolWorker := do
  let w ← g.world
  let w2 ← GolWorker.RunWorld w
  pure { g with world := some w2 }

/-- `GolWorker.AliveCellsCount`, served while the lock is free. -/
def GolWorker.AliveCellsCount (g : GolWorker) : Option Stubs.AliveCellsCountResp := do
  let w ← g.world
  let count ← w.GetAliveCellsCount
  pure { Count := count, Turn := g.currentTurn }

/-- What a `select` of the turn loop receives: a pause signal (and whether the second signal,
the resume, ever arrives), the hard quit, or the soft reset. -/
inductive Signal where
  | pause (resumed : Bool)
  | quit
  | reset
deriving DecidableEq, Repr

/-- The environment of one `GameOfLife` call: whether `rpc.Dial` succeeds, which case the
`select` of the iteration with loop variable `turn` takes (`none` is `default`), and whether
a report call succeeds. -/
structure Env where
  dial : Bool
  select : Int → Option Signal
  call : Stubs.TurnCompleteReq → Bool

/-- How a `GameOfLife` call ends. -/
inductive Outcome where
  | returned (err : Bool) (resp : Stubs.GameOfLifeResp)
  | panicked
  | exited
  | blocked
  | outOfFuel
deriving DecidableEq, Repr

/-- A finished call: the worker it leaves, the report calls it issued (in order), its end. -/
structure Trace where
  worker : GolWorker
  reports : List Stubs.TurnCompleteReq
  outcome : Outcome
deriving DecidableEq, Repr

/-- One pass through the loop body. -/
inductive Step where
  | next (g : GolWorker) (reports : List Stubs.TurnCompleteReq)
  | done (t : Trace)
deriving DecidableEq, Repr

/-- The body of the turn loop (the `select`) at loop variable `turn`; `reports` are the
report calls issued so far. -/
def GolWorker.iteration (env : Env) (resp : Stubs.GameOfLifeResp) (turn : Int)
    (g : GolWorker) (reports : List Stubs.TurnCompleteReq) : Step :=
  match env.select turn with
  | some (Signal.pause true) => Step.next g reports
  | some (Signal.pause false) => Step.done ⟨g, reports, Outcome.blocked⟩
  | some Signal.quit => Step.done ⟨g, reports, Outcome.exited⟩
  | some Signal.reset =>
    let g2 : GolWorker := { world := none, currentTurn := 0, pasused := false }
    Step.done ⟨g2, reports, Outcome.returned false { resp with Turns := g2.currentTurn }⟩
  | none =>
    let g1 : GolWorker := { g with currentTurn := turn }
    match g1.Run with
    | none => Step.done ⟨g1, reports, Outcome.panicked⟩
    | some g2 =>
      if turn > 0 then
        match g2.world.bind World.GetCellsChanged with
        | none => Step.done ⟨g2, reports, Outcome.panicked⟩
        | some cells =>
          let req : Stubs.TurnCompleteReq := { Turn := turn, Cells := cells }
          if env.call req then Step.next g2 (reports ++ [req])
          else Step.done ⟨g2, reports ++ [req], Outcome.panicked⟩
      else Step.next g2 reports

/-- The loop `for turn := 0; turn <= g.world.Turns; turn++` from the value `turn` on, and the
statements after it. `fuel` bounds the number of condition checks. -/
def GolWorker.turnLoop (env : Env) (resp : Stubs.GameOfLifeResp) :
    Nat → Int → GolWorker → List Stubs.TurnCompleteReq → Trace
  | 0, _, g, reports => ⟨g, reports, Outcome.outOfFuel⟩
  | fuel + 1, turn, g, reports =>
    match g.world with
    | none => ⟨g, reports, Outcome.panicked⟩
    | some w =>
      if turn ≤ w.Turns then
        match GolWorker.iteration env resp turn g reports with
        | Step.next g2 reports2 => GolWorker.turnLoop env resp fuel (turn + 1) g2 reports2
        | Step.done t => t
      else
        ⟨g, reports, Outcome.returned false
          { World := { resp.World with Cells := w.PrevLattice.Cells },
            Turns := g.currentTurn }⟩

/-- The loop `for i := range req.World.Cells { copy(cur[i], req.World.Cells[i]) }`. -/
def copyRows (cur src : List (List Bool)) : Option (List (List Bool)) :=
  (List.range src.length).foldlM (fun cells (i : Nat) => do
    let dst ← index cells i
    let row ← index src i
    store cells i (goCopy dst row)) cur

/-- The first statements of `GameOfLife`, up to the copy loop: the worker with its new world
(`none` is a panic: a negative dimension, or more request rows than `Height`). -/
def GolWorker.start (g : GolWorker) (req : Stubs.GameOfLifeReq) : Option GolWorker := do
  let p : Params :=
    { ImageHeight := req.World.Height, ImageWidth := req.World.Width,
      Turns := req.World.Turns, Threads := req.World.Threads }
  let cur ← NewSlice p
  let prev ← NewSlice p
  let cells ← copyRows cur.Cells req.World.Cells
  let w : World :=
    { Width := req.World.Width, Height := req.World.Height,
      Turns := req.World.Turns, Threads := req.World.Threads,
      CurLattice := { cur with Cells := cells }, PrevLattice := prev }
  pure { g with world := some w }

/-- `GolWorker.GameOfLife`: build the world, copy the request rows, dial the controller, run
the turn loop. The loop checks its condition `Turns + 2` times at most. -/
def GolWorker.GameOfLife (env : Env) (g : GolWorker) (req : Stubs.GameOfLifeReq)
    (resp : Stubs.GameOfLifeResp) : Trace :=
  match GolWorker.start g req with
  | none => ⟨g, [], Outcome.panicked⟩
  | some g1 =>
    if env.dial then
      GolWorker.turnLoop env resp ((req.World.Turns + 1).toNat + 1) 0 g1 []
    else ⟨g1, [], Outcome.returned true resp⟩

/-- The environment in which no signal arrives, dialling succeeds and every report call
succeeds. -/
def quietEnv : Env := { dial := true, select := fun _ => none, call := fun _ => true }


/-! ## The step rule, as the specification words it -/

/-- State of cell `(x, y)` of a grid stored as `cells[x][y]`; dead outside the stored range. -/
def cellAt (g : List (List Bool)) (x y : Nat) : Bool := (g.getD x []).getD y false

/-- The eight offsets `(dx, dy)`, `dx, dy ∈ {-1, 0, 1}`, other than `(0, 0)`. -/
def offsets8 : List (Int × Int) :=
  [(-1, -1), (-1, 0), (-1, 1), (0, -1), (0, 1), (1, -1), (1, 0), (1, 1)]

/-- The state read at `((x + dx) mod n, (y + dy) mod n)`, `mod` being the mathematical
remainder. -/
def wrapAt (n : Nat) (g : List (List Bool)) (x y : Int) : Bool :=
  cellAt g (x % (n : Int)).toNat (y % (n : Int)).toNat

/-- The number `k` of live cells among the eight wrapped neighbours of `(x, y)`. -/
def liveNeighbours (n : Nat) (g : List (List Bool)) (x y : Nat) : Nat :=
  offsets8.countP (fun d => wrapAt n g ((x : Int) + d.1) ((y : Int) + d.2))

/-- The rule: alive iff `k = 3`, or the cell was alive and `k = 2`. -/
def ruleAlive (n : Nat) (g : List (List Bool)) (x y : Nat) : Bool :=
  decide (liveNeighbours n g x y = 3) || (cellAt g x y && decide (liveNeighbours n g x y = 2))

/-- One application of the step rule to an `n × n` grid. -/
def stepRule (n : Nat) (g : List (List Bool)) : List (List Bool) :=
  (List.range n).map fun x => (List.range n).map fun y => ruleAlive n g x y

/-- Generation `k`: the step rule applied `k` times to `g0`. -/
def generation (n : Nat) (g0 : List (List Bool)) : Nat → List (List Bool)
  | 0 => g0
  | k + 1 => stepRule n (generation n g0 k)

/-- An `n × n` cell table. -/
def SquareCells (n : Nat) (g : List (List Bool)) : Prop :=
  g.length = n ∧ ∀ r ∈ g, r.length = n

/-- A buffer whose declared width and height are `n` and whose table is `n × n`. -/
def Slice.Square (n : Nat) (s : Slice) : Prop :=
  s.Width = n ∧ s.Height = n ∧ SquareCells n s.Cells

instance (n : Nat) (g : List (List Bool)) : Decidable (SquareCells n g) :=
  inferInstanceAs (Decidable (g.length = n ∧ ∀ r ∈ g, r.length = n))

instance (n : Nat) (s : Slice) : Decidable (Slice.Square n s) :=
  inferInstanceAs (Decidable (s.Width = n ∧ s.Height = n ∧ SquareCells n s.Cells))

/-- The coordinates at which two `n × n` tables differ, ordered by `y`, then `x`. -/
def diffCells (n : Nat) (g1 g2 : List (List Bool)) : List Cell :=
  (List.range n).flatMap fun (y : Nat) =>
    ((List.range n).filter fun (x : Nat) => cellAt g1 x y != cellAt g2 x y).map
      fun (x : Nat) => { X := (x : Int), Y := (y : Int) }

/-- The turn numbers `1, 2, …, N`. -/
def turnsUpTo (N : Nat) : List Int := (List.range N).map fun (i : Nat) => (i : Int) + 1

/-- What the worker holds at the head of the iteration `turn = t` of a signal-free run on a
square grid `g0`: a square world; with at least one thread the current buffer is generation
`t` and, from `t = 1` on, the previous buffer is generation `t - 1`; from `t = 1` on the turn
counter is `t - 1`. -/
def QuietInv (n N : Nat) (T : Int) (g0 : List (List Bool)) (t : Nat) (g : GolWorker) : Prop :=
  ∃ w, g.world = some w ∧ w.Width = n ∧ w.Height = n ∧ w.Turns = N ∧ w.Threads = T ∧
    w.CurLattice.Square n ∧ w.PrevLattice.Square n ∧
    (1 ≤ T → w.CurLattice.Cells = generation n g0 t ∧
      (1 ≤ t → w.PrevLattice.Cells = generation n g0 (t - 1))) ∧
    (1 ≤ t → g.currentTurn = ((t - 1 : Nat) : Int))

/-! ## Concrete inputs -/

/-- An `n × n` table with the live cells listed in `live` as `(x, y)`. -/
def tableOf (n : Nat) (live : List (Nat × Nat)) : List (List Bool) :=
  (List.range n).map fun (x : Nat) => (List.range n).map fun (y : Nat) => decide ((x, y) ∈ live)

/-- The all-dead `n × n` buffer `NewSlice` returns. -/
def deadSlice (n : Nat) (threads : Int) : Slice :=
  { Width := n, Height := n, Threads := threads,
    Cells := List.replicate n (List.replicate n false) }

/-- A square world with `live` as current generation and an all-dead previous buffer. -/
def squareWorld (n : Nat) (turns threads : Int) (live : List (Nat × Nat)) : World :=
  { Width := n, Height := n, Turns := turns, Threads := threads,
    CurLattice := { Width := n, Height := n, Threads := threads, Cells := tableOf n live },
    PrevLattice := deadSlice n threads }

/-- The run request for an `n × n` grid. -/
def squareReq (n : Nat) (turns threads : Int) (live : List (Nat × Nat)) :
    Stubs.GameOfLifeReq :=
  { World := { Width := n, Height := n, Turns := turns, Threads := threads,
               Cells := tableOf n live } }

/-- A worker as `NewGolWorker` creates it. -/
def NewGolWorker : GolWorker := { world := none, pasused := false, currentTurn := 0 }

/-- The zero-valued response the RPC layer passes to `GameOfLife`. -/
def zeroResp : Stubs.GameOfLifeResp :=
  { World := { Width := 0, Height := 0, Turns := 0, Threads := 0, Cells := [] }, Turns := 0 }

/-- The 8 × 8 world of the blinker scenario: 4 threads, budget 2, live cells `(3,2)`, `(3,3)`,
`(3,4)`. -/
def blinkerWorker : GolWorker :=
  { world := some (squareWorld 8 2 4 [(3, 2), (3, 3), (3, 4)]), pasused := false,
    currentTurn := 0 }

/-- An environment without quit or reset in which the `select` of the iteration `turn = 1`
takes a pause signal that is followed by the resume signal. -/
def pauseAtOneEnv : Env :=
  { dial := true,
    select := fun t => if t = 1 then some (Signal.pause true) else none,
    call := fun _ => true }

/-- The number of live cells of a table. -/
def liveCount (g : List (List Bool)) : Nat := (g.map fun r => r.count true).sum


/-! ## `World.Run` (`distributor.go`) -/

/-- How a call of `World.Run` ends. -/
inductive RunResult where
  | done (w : World)
  | panicked
  | outOfFuel
deriving DecidableEq, Repr

/-- The inner loop `for i := 0; i < w.Threads; i++ { go task(y); y++; if y == w.Height
{ break } }` of `World.Run` with `passes` passes left: the value of `y` and the spawn list
when the loop is left. -/
def World.spawnInner (height : Int) : Nat → Int → List Int → Int × List Int
  | 0, y, ts => (y, ts)
  | passes + 1, y, ts =>
    if y + 1 = height then (y + 1, ts ++ [y])
    else World.spawnInner height passes (y + 1) (ts ++ [y])

/-- The outer loop `for y := 0; y < w.Height; { … }` of `World.Run`, which has no increment
of its own; `fuel` bounds the number of condition checks, `none` is fuel exhausted. -/
def World.spawnOuter (height threads : Int) : Nat → Int → List Int → Option (List Int)
  | 0, _, _ => none
  | fuel + 1, y, ts =>
    if y < height then
      World.spawnOuter height threads fuel
        (World.spawnInner height threads.toNat y ts).1
        (World.spawnInner height threads.toNat y ts).2
    else some ts

/-- `World.Run`: spawn the tasks, join them, swap the two buffers. -/
def World.Run (fuel : Nat) (w : World) : RunResult :=
  match World.spawnOuter w.Height w.Threads fuel 0 [] with
  | none => RunResult.outOfFuel
  | some ts =>
    match ts.foldlM (fun p y => rowTask w.Width w.CurLattice y p) w.PrevLattice with
    | none => RunResult.panicked
    | some prev => RunResult.done { w with PrevLattice := w.CurLattice, CurLattice := prev }

/-- The single-pass step: `NextStep (x, y)` of the current generation is written into the
other buffer once per cell, row after row, then the buffers are swapped. No thread count is
read. -/
def singlePass (w : World) : Option World := do
  let prev ← (upTo w.Height).foldlM (fun p y =>
    (upTo w.Width).foldlM (fun p x => do
      let v ← w.CurLattice.NextStep x y
      p.InitialCellState x y v) p) w.PrevLattice
  pure { w with PrevLattice := w.CurLattice, CurLattice := prev }

/-! ## `KeyPress` (`gol_worker.go`) and the callback service -/

/-- `stubs.KeyPressResp`. -/
structure Stubs.KeyPressResp where
  World : Stubs.World
  Turn : Int
  Pause : Bool
deriving DecidableEq, Repr

/-- The three channels of the worker. -/
inductive Chan where
  | pauseChannel
  | quitChannel
  | DistributorQuitChan
deriving DecidableEq, Repr

/-- How a `KeyPress` call ends: it returns nil with the worker it leaves, the response and
the channels it sent on; or its channel send is never received; or it dereferences a nil
world. -/
inductive KeyOutcome where
  | returned (g : GolWorker) (resp : Stubs.KeyPressResp) (sent : List Chan)
  | blocked (g : GolWorker) (resp : Stubs.KeyPressResp)
  | panicked
deriving DecidableEq, Repr

/-- `GolWorker.KeyPress` on the worker state `g` of the moment of the call. The channels are
unbuffered: `accepted` says whether the turn loop receives what the handler sends. A rune is
a `Char`. -/
def GolWorker.KeyPress (accepted : Bool) (g : GolWorker) (key : Char)
    (resp : Stubs.KeyPressResp) : KeyOutcome :=
  let resp1 : Stubs.KeyPressResp := { resp with Turn := g.currentTurn }
  if key = 'p' then
    if accepted then
      let g2 : GolWorker := { g with pasused := !g.pasused }
      KeyOutcome.returned g2 { resp1 with Pause := g2.pasused } [Chan.pauseChannel]
    else KeyOutcome.blocked g resp1
  else if key = 'q' then
    if accepted then KeyOutcome.returned g resp1 [Chan.DistributorQuitChan]
    else KeyOutcome.blocked g resp1
  else if key = 's' then
    match g.world with
    | none => KeyOutcome.panicked
    | some w =>
      KeyOutcome.returned g
        { resp1 with World := { resp1.World with Cells := w.CurLattice.Cells } } []
  else if key = 'k' then
    match g.world with
    | none => KeyOutcome.panicked
    | some w =>
      let resp2 : Stubs.KeyPressResp :=
        { resp1 with World := { resp1.World with Cells := w.CurLattice.Cells } }
      if accepted then KeyOutcome.returned g resp2 [Chan.quitChannel]
      else KeyOutcome.blocked g resp2
  else KeyOutcome.returned g resp1 []

/-- The zero-valued response the RPC layer passes to `KeyPress`. -/
def zeroKeyResp : Stubs.KeyPressResp :=
  { World := { Width := 0, Height := 0, Turns := 0, Threads := 0, Cells := [] },
    Turn := 0, Pause := false }

/-- The callback service handling the report calls one after the other, as the worker issues
them: the controller after the last call and all events sent, in order. -/
def LocalControl.deliver (l : LocalControl) (reports : List Stubs.TurnCompleteReq) :
    LocalControl × List Event :=
  reports.foldl (fun st req => ((st.1.TurnComplete req).1, st.2 ++ (st.1.TurnComplete req).2))
    (l, [])

/-- The turn of a `TurnComplete` event, `none` for another event. -/
def Event.turnCompleted : Event → Option Int
  | Event.TurnComplete t => some t
  | Event.CellFlipped _ _ => none

/-- The field `CompletedTurns` of an event. -/
def Event.CompletedTurns : Event → Int
  | Event.TurnComplete t => t
  | Event.CellFlipped t _ => t

/-! ## Wrapped neighbours, for the pattern claims -/

/-- The coordinate `(x - 1) mod n` for `x < n`. -/
def predN (n x : Nat) : Nat := if x = 0 then n - 1 else x - 1

/-- The coordinate `(x + 1) mod n` for `x < n`. -/
def succN (n x : Nat) : Nat := if x + 1 = n then 0 else x + 1

/-- The coordinate `(x + d) mod n` for `x < n` and `d` one of `-1`, `0`, `1`. -/
def shiftN (n : Nat) (d : Int) (x : Nat) : Nat :=
  if d = -1 then predN n x else if d = 0 then x else succN n x

/-- The rule on a grid whose state at `(a, b)` is a product `P a && Q b`, in terms of the
values of `P` left of, at and right of `x` and of `Q` below, at and above `y`. -/
def ruleOfTriples (pl pc pr ql qc qr : Bool) : Bool :=
  decide ([pl && ql, pl && qc, pl && qr, pc && ql, pc && qr, pr && ql, pr && qc,
      pr && qr].count true = 3) ||
    (pc && qc && decide ([pl && ql, pl && qc, pl && qr, pc && ql, pc && qr, pr && ql, pr && qc,
      pr && qr].count true = 2))

/-- Membership of `a` in the two wrapped coordinates `x0`, `(x0 + 1) mod n` of a block. -/
def inBlock (n x0 a : Nat) : Bool := decide (a = x0 ∨ a = (x0 + 1) % n)

/-- An environment without quit or reset in which the `select` of the iteration `turn = t`
takes a pause signal that is followed by the resume signal. -/
def pauseAtEnv (t : Int) : Env :=
  { dial := true,
    select := fun u => if u = t then some (Signal.pause true) else none,
    call := fun _ => true }

theorem index_ofNat {α : Type} (l : List α) (i : Nat) : index l (i : Int) = l[i]? := by
  simp [index]

theorem store_ofNat {α : Type} (l : List α) (i : Nat) (v : α) (h : i < l.length) :
    store l (i : Int) v = some (l.set i v) := by
  simp [store, h]

theorem read_square {n : Nat} {s : Slice} (hs : s.Square n) {x y : Nat} (hx : x < n)
    (hy : y < n) : s.read x y = some (cellAt s.Cells x y) := by
  obtain ⟨_, _, hl, hr⟩ := hs
  have hx2 : x < s.Cells.length := by omega
  have hrow : (s.Cells[x]).length = n := hr _ (List.getElem_mem _)
  have hy2 : y < (s.Cells[x]).length := by omega
  simp [Slice.read, index_ofNat, cellAt, List.getD_eq_getElem?_getD, List.getElem?_eq_getElem hx2,
    List.getElem?_eq_getElem hy2]

theorem CellState_square {n : Nat} {s : Slice} (hs : s.Square n) {x y : Int}
    (hx1 : -1 ≤ x) (hx2 : x ≤ n) (hy1 : -1 ≤ y) (hy2 : y ≤ n) (hn : 0 < n) :
    s.CellState x y = some (wrapAt n s.Cells x y) := by
  have hW := hs.1
  have hH := hs.2.1
  have key : ∀ v : Int, -1 ≤ v → v ≤ n → wrapCoord v n = some (v % (n : Int)) := by
    intro v h1 h2
    have hn0 : (n : Int) ≠ 0 := by omega
    unfold wrapCoord
    by_cases hv : v = (n : Int) ∨ v = -1
    · rw [if_pos hv]
      simp only [goMod, if_neg hn0]
      congr 1
      rw [Int.tmod_eq_emod (by omega) (by omega)]
      simp
    · rw [if_neg hv]
      have : v % (n : Int) = v := Int.emod_eq_of_lt (by omega) (by omega)
      simp [this]
  have hxm := Int.emod_nonneg x (show (n : Int) ≠ 0 by omega)
  have hxl := Int.emod_lt_of_pos x (show (0 : Int) < n by omega)
  have hym := Int.emod_nonneg y (show (n : Int) ≠ 0 by omega)
  have hyl := Int.emod_lt_of_pos y (show (0 : Int) < n by omega)
  have hread : s.read (x % (n : Int)) (y % (n : Int)) = some (wrapAt n s.Cells x y) := by
    have := read_square hs (x := (x % (n : Int)).toNat) (y := (y % (n : Int)).toNat)
      (by omega) (by omega)
    rw [Int.toNat_of_nonneg hxm, Int.toNat_of_nonneg hym] at this
    exact this
  unfold Slice.CellState
  rw [hW, hH]
  split
  · rename_i h
    have e1 : x % (n : Int) = x := Int.emod_eq_of_lt (by omega) (by omega)
    have e2 : y % (n : Int) = y := Int.emod_eq_of_lt (by omega) (by omega)
    rw [e1, e2] at hread
    exact hread
  · rw [key x hx1 hx2, key y hy1 hy2]
    simpa using hread

theorem NextStep_square {n : Nat} {s : Slice} (hs : s.Square n) {x y : Nat} (hx : x < n)
    (hy : y < n) : s.NextStep x y = some (ruleAlive n s.Cells x y) := by
  have hn : 0 < n := by omega
  have hc : ∀ dx dy : Int, -1 ≤ dx → dx ≤ 1 → -1 ≤ dy → dy ≤ 1 →
      s.CellState ((x : Int) + dx) ((y : Int) + dy)
        = some (wrapAt n s.Cells ((x : Int) + dx) ((y : Int) + dy)) := by
    intro dx dy h1 h2 h3 h4
    exact CellState_square hs (by omega) (by omega) (by omega) (by omega) hn
  have h00 : s.CellState x y = some (cellAt s.Cells x y) := by
    have := hc 0 0 (by omega) (by omega) (by omega) (by omega)
    simp only [add_zero] at this
    rw [this]
    congr 1
    unfold wrapAt
    rw [Int.emod_eq_of_lt (by omega) (by omega), Int.emod_eq_of_lt (by omega) (by omega)]
    simp
  unfold Slice.NextStep stepOffsets
  simp only [List.foldlM, hc (-1) (-1) (by omega) (by omega) (by omega) (by omega),
    hc (-1) 0 (by omega) (by omega) (by omega) (by omega),
    hc (-1) 1 (by omega) (by omega) (by omega) (by omega),
    hc 0 (-1) (by omega) (by omega) (by omega) (by omega),
    hc 0 0 (by omega) (by omega) (by omega) (by omega),
    hc 0 1 (by omega) (by omega) (by omega) (by omega),
    hc 1 (-1) (by omega) (by omega) (by omega) (by omega),
    hc 1 0 (by omega) (by omega) (by omega) (by omega),
    hc 1 1 (by omega) (by omega) (by omega) (by omega)]
  rw [h00]
  simp only [ruleAlive, liveNeighbours, offsets8, List.countP_cons, List.countP_nil]
  generalize wrapAt n s.Cells ((x : Int) + -1) ((y : Int) + -1) = b1
  generalize wrapAt n s.Cells ((x : Int) + -1) ((y : Int) + 0) = b2
  generalize wrapAt n s.Cells ((x : Int) + -1) ((y : Int) + 1) = b3
  generalize wrapAt n s.Cells ((x : Int) + 0) ((y : Int) + -1) = b4
  generalize wrapAt n s.Cells ((x : Int) + 0) ((y : Int) + 0) = b5
  generalize wrapAt n s.Cells ((x : Int) + 0) ((y : Int) + 1) = b6
  generalize wrapAt n s.Cells ((x : Int) + 1) ((y : Int) + -1) = b7
  generalize wrapAt n s.Cells ((x : Int) + 1) ((y : Int) + 0) = b8
  generalize wrapAt n s.Cells ((x : Int) + 1) ((y : Int) + 1) = b9
  generalize cellAt s.Cells x y = c
  revert b1 b2 b3 b4 b5 b6 b7 b8 b9 c
  decide

/-- The table after the write `cells[x][y] = v`. -/
theorem write_square {n : Nat} {s : Slice} (hs : s.Square n) {x y : Nat} (hx : x < n)
    (hy : y < n) (v : Bool) :
    ∃ c, s.InitialCellState x y v = some { s with Cells := c } ∧ SquareCells n c ∧
      ∀ a b, cellAt c a b = if a = x ∧ b = y then v else cellAt s.Cells a b := by
  obtain ⟨hW, hH, hl, hr⟩ := hs
  have hx2 : x < s.Cells.length := by omega
  have hrow : (s.Cells[x]).length = n := hr _ (List.getElem_mem _)
  have hy2 : y < (s.Cells[x]).length := by omega
  refine ⟨s.Cells.set x ((s.Cells[x]).set y v), ?_, ⟨?_, ?_⟩, ?_⟩
  · have hg : (x : Int) ≥ 0 ∧ (x : Int) < s.Width ∧ (y : Int) ≥ 0 ∧ (y : Int) < s.Height := by
      omega
    rw [Slice.InitialCellState, if_pos hg]
    simp [Slice.write, index_ofNat, List.getElem?_eq_getElem hx2, store_ofNat _ _ _ hy2,
      store_ofNat _ _ _ hx2]
  · simpa using hl
  · intro r hrm
    rcases List.mem_or_eq_of_mem_set hrm with h | h
    · exact hr r h
    · rw [h]; simpa using hrow
  · intro a b
    by_cases ha : a = x
    · subst ha
      by_cases hb : b = y
      · subst hb
        simp [cellAt, List.getD_eq_getElem?_getD, List.getElem?_set, hx2, hy2]
      · have hb2 : ¬ y = b := fun h => hb h.symm
        simp [cellAt, List.getD_eq_getElem?_getD, List.getElem?_set, hx2, hb, hb2,
          List.getElem?_eq_getElem hx2]
    · have ha2 : ¬ x = a := fun h => ha h.symm
      simp [cellAt, List.getD_eq_getElem?_getD, List.getElem?_set, ha, ha2]

/-- Two `n × n` tables that agree at every cell are equal. -/
theorem squareCells_ext {n : Nat} {g1 g2 : List (List Bool)} (hc : SquareCells n g1)
    (hd : SquareCells n g2) (h : ∀ a b, a < n → b < n → cellAt g1 a b = cellAt g2 a b) :
    g1 = g2 := by
  obtain ⟨hcl, hcr⟩ := hc
  obtain ⟨hdl, hdr⟩ := hd
  apply List.ext_getElem (by omega)
  intro a h1 h2
  have r1 : (g1[a]).length = n := hcr _ (List.getElem_mem _)
  have r2 : (g2[a]).length = n := hdr _ (List.getElem_mem _)
  apply List.ext_getElem (by omega)
  intro b h3 h4
  have := h a b (by omega) (by omega)
  simpa [cellAt, List.getD_eq_getElem?_getD, List.getElem?_eq_getElem h1,
    List.getElem?_eq_getElem h2, List.getElem?_eq_getElem h3, List.getElem?_eq_getElem h4]
    using this

theorem stepRule_square (n : Nat) (g : List (List Bool)) : SquareCells n (stepRule n g) := by
  constructor
  · simp [stepRule]
  · intro r hr
    simp only [stepRule, List.mem_map] at hr
    obtain ⟨x, _, rfl⟩ := hr
    simp

theorem cellAt_stepRule {n : Nat} (g : List (List Bool)) {a b : Nat} (ha : a < n)
    (hb : b < n) : cellAt (stepRule n g) a b = ruleAlive n g a b := by
  simp [cellAt, stepRule, List.getD_eq_getElem?_getD, List.getElem?_range, ha, hb]

theorem upTo_succ (k : Nat) : upTo ((k + 1 : Nat) : Int) = upTo (k : Int) ++ [(k : Int)] := by
  simp [upTo, List.range_succ]

/-- The first `k` writes of a row task. -/
theorem rowTask_partial {n : Nat} {cur prev : Slice} (hcur : cur.Square n)
    (hprev : prev.Square n) {y : Nat} (hy : y < n) (k : Nat) (hk : k ≤ n) :
    ∃ c, (upTo (k : Int)).foldlM (fun p x => do
        let v ← cur.NextStep x y
        p.InitialCellState x y v) prev = some { prev with Cells := c } ∧ SquareCells n c ∧
      ∀ a b, cellAt c a b
        = if a < k ∧ b = y then ruleAlive n cur.Cells a y else cellAt prev.Cells a b := by
  induction k with
  | zero =>
    exact ⟨prev.Cells, by simp [upTo], hprev.2.2, by simp⟩
  | succ k ih =>
    obtain ⟨c, h1, h2, h3⟩ := ih (by omega)
    have hsq : Slice.Square n { prev with Cells := c } := ⟨hprev.1, hprev.2.1, h2⟩
    obtain ⟨c2, g1, g2, g3⟩ := write_square hsq (show k < n by omega) hy
      (ruleAlive n cur.Cells k y)
    refine ⟨c2, ?_, g2, ?_⟩
    · rw [upTo_succ, List.foldlM_append, h1]
      simp [List.foldlM, NextStep_square hcur (show k < n by omega) hy, g1]
    · intro a b
      rw [g3, h3]
      by_cases e1 : a = k
      · subst e1
        by_cases e2 : b = y
        · simp [e2]
        · simp [e2]
      · by_cases e2 : b = y
        · have : a < k + 1 ↔ a < k := by omega
          simp [e1, e2, this]
        · simp [e2]

theorem rowTask_square {n : Nat} {cur prev : Slice} (hcur : cur.Square n)
    (hprev : prev.Square n) {y : Nat} (hy : y < n) :
    ∃ c, rowTask n cur y prev = some { prev with Cells := c } ∧ SquareCells n c ∧
      ∀ a b, a < n → cellAt c a b
        = if b = y then ruleAlive n cur.Cells a y else cellAt prev.Cells a b := by
  obtain ⟨c, h1, h2, h3⟩ := rowTask_partial hcur hprev hy n le_rfl
  refine ⟨c, h1, h2, ?_⟩
  intro a b ha
  rw [h3]
  simp [ha]

theorem foldl_spawn_const {α β : Type} (l : List β) (y : α) (ts : List α) :
    l.foldl (fun ts _ => ts ++ [y]) ts = ts ++ List.replicate l.length y := by
  induction l generalizing ts with
  | nil => simp
  | cons b l ih =>
    rw [List.foldl_cons, ih]
    simp [List.replicate_succ]

theorem foldl_spawn_rows {α β : Type} (l : List β) (f : β → List α) (ts : List α) :
    l.foldl (fun ts y => ts ++ f y) ts = ts ++ l.flatMap f := by
  induction l generalizing ts with
  | nil => simp
  | cons b l ih =>
    rw [List.foldl_cons, ih]
    simp

/-- The spawn list of `GolWorker.Run`: every `y` below `Height`, `Threads` times in a row. -/
theorem spawned_eq (w : World) :
    GolWorker.spawned w
      = (upTo w.Height).flatMap (fun y => List.replicate w.Threads.toNat y) := by
  unfold GolWorker.spawned
  have h : (fun (ts : List Int) (y : Int) => (upTo w.Threads).foldl (fun ts _ => ts ++ [y]) ts)
      = fun ts y => ts ++ List.replicate w.Threads.toNat y := by
    funext ts y
    rw [foldl_spawn_const]
    simp [upTo]
  rw [h, foldl_spawn_rows]
  simp

theorem mem_upTo {n : Nat} {v : Int} : v ∈ upTo (n : Int) ↔ ∃ k : Nat, k < n ∧ v = k := by
  simp only [upTo, Int.toNat_ofNat, List.mem_map, List.mem_range]
  constructor
  · rintro ⟨k, hk, rfl⟩
    exact ⟨k, hk, rfl⟩
  · rintro ⟨k, hk, rfl⟩
    exact ⟨k, hk, rfl⟩

theorem mem_spawned_lt {w : World} {n : Nat} (hH : w.Height = n) {v : Int}
    (hv : v ∈ GolWorker.spawned w) : ∃ k : Nat, k < n ∧ v = k := by
  rw [spawned_eq, hH] at hv
  simp only [List.mem_flatMap, List.mem_replicate] at hv
  obtain ⟨y, hy, _, rfl⟩ := hv
  exact mem_upTo.mp hy

theorem mem_spawned {w : World} {n : Nat} (hH : w.Height = n) (hT : 1 ≤ w.Threads) {v : Int} :
    v ∈ GolWorker.spawned w ↔ ∃ k : Nat, k < n ∧ v = k := by
  constructor
  · exact mem_spawned_lt hH
  · intro h
    rw [spawned_eq, hH]
    simp only [List.mem_flatMap, List.mem_replicate]
    exact ⟨v, mem_upTo.mpr h, by omega, rfl⟩

/-- Any sequence of row tasks on rows below `n`: the rows named in the sequence hold the next
generation, the others are untouched. -/
theorem tasks_square {n : Nat} {cur : Slice} (hcur : cur.Square n) (ts : List Int)
    (hts : ∀ t ∈ ts, ∃ k : Nat, k < n ∧ t = k) (prev : Slice) (hprev : prev.Square n) :
    ∃ c, ts.foldlM (fun p y => rowTask n cur y p) prev = some { prev with Cells := c } ∧
      SquareCells n c ∧
      ∀ a b, a < n → cellAt c a b
        = if (b : Int) ∈ ts then ruleAlive n cur.Cells a b else cellAt prev.Cells a b := by
  induction ts generalizing prev with
  | nil => exact ⟨prev.Cells, by simp, hprev.2.2, by simp⟩
  | cons t ts ih =>
    obtain ⟨y, hy, rfl⟩ := hts t (List.mem_cons_self _ _)
    obtain ⟨c, h1, h2, h3⟩ := rowTask_square hcur hprev hy
    have hsq : Slice.Square n { prev with Cells := c } := ⟨hprev.1, hprev.2.1, h2⟩
    obtain ⟨c2, g1, g2, g3⟩ := ih (fun t ht => hts t (List.mem_cons_of_mem _ ht)) _ hsq
    refine ⟨c2, ?_, g2, ?_⟩
    · rw [List.foldlM_cons, h1]
      simpa using g1
    · intro a b ha
      rw [g3 a b ha]
      by_cases hb : (b : Int) ∈ ts
      · simp [hb]
      · simp only [if_neg hb, h3 a b ha, List.mem_cons]
        by_cases e : b = y
        · subst e; simp
        · have : ¬ ((b : Int) = (y : Int)) := by omega
          simp [e, this, hb]

/-- One generation step on a square world, for any thread count: no panic, the buffers are
swapped, the written buffer stays `n × n`; with at least one thread it holds the step rule
applied to the read buffer. -/
theorem RunWorld_total {n : Nat} {w : World} (hW : w.Width = n) (hH : w.Height = n)
    (hcur : w.CurLattice.Square n) (hprev : w.PrevLattice.Square n) :
    ∃ c, GolWorker.RunWorld w = some { w with
        PrevLattice := w.CurLattice,
        CurLattice := { w.PrevLattice with Cells := c } } ∧ SquareCells n c ∧
      (1 ≤ w.Threads → c = stepRule n w.CurLattice.Cells) := by
  obtain ⟨c, h1, h2, h3⟩ := tasks_square hcur (GolWorker.spawned w)
    (fun t ht => mem_spawned_lt hH ht) w.PrevLattice hprev
  refine ⟨c, ?_, h2, ?_⟩
  · unfold GolWorker.RunWorld
    rw [hW, h1]
    rfl
  · intro hT
    apply squareCells_ext h2 (stepRule_square n _)
    intro a b ha hb
    rw [h3 a b ha, cellAt_stepRule _ ha hb]
    have : (b : Int) ∈ GolWorker.spawned w := (mem_spawned hH hT).mpr ⟨b, hb, rfl⟩
    simp [this]

/-- One generation step on a square world with at least one thread. -/
theorem RunWorld_square {n : Nat} {w : World} (hW : w.Width = n) (hH : w.Height = n)
    (hT : 1 ≤ w.Threads) (hcur : w.CurLattice.Square n) (hprev : w.PrevLattice.Square n) :
    GolWorker.RunWorld w = some { w with
      PrevLattice := w.CurLattice,
      CurLattice := { w.PrevLattice with Cells := stepRule n w.CurLattice.Cells } } := by
  obtain ⟨c, h1, _, h3⟩ := RunWorld_total hW hH hcur hprev
  rw [h1, h3 hT]

theorem CellState_inside {n : Nat} {s : Slice} (hs : s.Square n) {x y : Nat} (hx : x < n)
    (hy : y < n) : s.CellState x y = some (cellAt s.Cells x y) := by
  rw [CellState_square hs (by omega) (by omega) (by omega) (by omega) (by omega)]
  unfold wrapAt
  rw [Int.emod_eq_of_lt (by omega) (by omega), Int.emod_eq_of_lt (by omega) (by omega)]
  simp

/-- `GetCellsChanged` on a square world: no panic, and the differing coordinates in the order
`y`, then `x`. -/
theorem GetCellsChanged_square {n : Nat} {w : World} (hW : w.Width = n) (hH : w.Height = n)
    (hcur : w.CurLattice.Square n) (hprev : w.PrevLattice.Square n) :
    w.GetCellsChanged = some (diffCells n w.CurLattice.Cells w.PrevLattice.Cells) := by
  have inner : ∀ (y : Nat), y < n → ∀ (k : Nat), k ≤ n → ∀ acc : List Cell,
      (upTo (k : Int)).foldlM (fun cells x => do
        let c ← w.CurLattice.CellState x y
        let d ← w.PrevLattice.CellState x y
        pure (if c != d then cells ++ [{ X := x, Y := (y : Int) }] else cells)) acc
      = some (acc ++ ((List.range k).filter fun x =>
          cellAt w.CurLattice.Cells x y != cellAt w.PrevLattice.Cells x y).map
            fun x => { X := (x : Int), Y := (y : Int) }) := by
    intro y hy k
    induction k with
    | zero => intro _ acc; simp [upTo]
    | succ k ih =>
      intro hk acc
      rw [upTo_succ, List.foldlM_append, ih (by omega)]
      simp only [List.foldlM, Option.some_bind, Option.bind_eq_bind,
        CellState_inside hcur (show k < n by omega) hy,
        CellState_inside hprev (show k < n by omega) hy, List.range_succ, List.filter_append,
        List.map_append]
      by_cases hd : (cellAt w.CurLattice.Cells k y != cellAt w.PrevLattice.Cells k y) = true
      · simp [hd]
      · simp [hd]
  have outer : ∀ (k : Nat), k ≤ n → ∀ acc : List Cell,
      (upTo (k : Int)).foldlM (fun cells y =>
        (upTo w.Width).foldlM (fun cells x => do
          let c ← w.CurLattice.CellState x y
          let d ← w.PrevLattice.CellState x y
          pure (if c != d then cells ++ [{ X := x, Y := y }] else cells)) cells) acc
      = some (acc ++ (List.range k).flatMap fun y =>
          ((List.range n).filter fun x =>
            cellAt w.CurLattice.Cells x y != cellAt w.PrevLattice.Cells x y).map
              fun x => { X := (x : Int), Y := (y : Int) }) := by
    intro k
    induction k with
    | zero => intro _ acc; simp [upTo]
    | succ k ih =>
      intro hk acc
      rw [upTo_succ, List.foldlM_append, ih (by omega)]
      simp only [List.foldlM, Option.some_bind, Option.bind_eq_bind, hW]
      have hin := fun acc => inner k (by omega) n le_rfl acc
      simp only [Option.bind_eq_bind] at hin
      rw [hin]
      simp [List.range_succ, List.flatMap_append]
  unfold World.GetCellsChanged
  rw [hH, outer n le_rfl]
  simp [diffCells]

theorem mapM_replicate {α β : Type} (n : Nat) (a : α) (r : β) :
    (List.replicate n a).mapM (fun _ => some r) = some (List.replicate n r) := by
  induction n with
  | zero => rfl
  | succ k ih =>
    rw [List.replicate_succ, List.mapM_cons, ih]
    rfl

/-- `NewSlice` for a square image: the all-dead `n × n` buffer. -/
theorem NewSlice_square (n : Nat) (turns threads : Int) :
    NewSlice { Turns := turns, Threads := threads, ImageWidth := n, ImageHeight := n }
      = some { Width := n, Height := n, Threads := threads,
               Cells := List.replicate n (List.replicate n false) } := by
  have h1 : ¬ ((n : Int) < 0) := by omega
  simp only [NewSlice, goMake, if_neg h1, Int.toNat_ofNat, Option.bind_eq_bind,
    Option.some_bind, mapM_replicate]
  rfl

theorem replicate_square (n : Nat) : SquareCells n (List.replicate n (List.replicate n false)) := by
  constructor
  · simp
  · intro r hr
    rw [List.eq_of_mem_replicate hr]
    simp

/-- The copy loop of `GameOfLife` on two `n × n` tables leaves the request table. -/
theorem copyRows_square {n : Nat} {cur src : List (List Bool)} (hcur : SquareCells n cur)
    (hsrc : SquareCells n src) : copyRows cur src = some src := by
  have step : ∀ k : Nat, k ≤ n → ∃ cells,
      (List.range k).foldlM (fun cells (i : Nat) => do
        let dst ← index cells i
        let row ← index src i
        store cells i (goCopy dst row)) cur = some cells ∧ cells.length = n ∧
      ∀ i, cells[i]? = if i < k then src[i]? else cur[i]? := by
    intro k
    induction k with
    | zero => intro _; exact ⟨cur, by simp, hcur.1, by simp⟩
    | succ k ih =>
      intro hk
      obtain ⟨cells, h1, h2, h3⟩ := ih (by omega)
      have hk1 : k < cur.length := by rw [hcur.1]; omega
      have hk2 : k < src.length := by rw [hsrc.1]; omega
      have hk3 : k < cells.length := by omega
      have hd : cells[k]? = some (cur[k]) := by
        rw [h3 k]; simp [List.getElem?_eq_getElem hk1]
      have hl1 : (cur[k]).length = n := hcur.2 _ (List.getElem_mem _)
      have hl2 : (src[k]).length = n := hsrc.2 _ (List.getElem_mem _)
      have hcopy : goCopy (cur[k]) (src[k]) = src[k] := by
        have hll : (cur[k]).length = (src[k]).length := by omega
        rw [goCopy, hll, List.take_length, ← hll, List.drop_length, List.append_nil]
      refine ⟨cells.set k (src[k]), ?_, by simpa using h2, ?_⟩
      · rw [List.range_succ, List.foldlM_append, h1]
        simp [List.foldlM, index_ofNat, hd, List.getElem?_eq_getElem hk2, hcopy,
          store_ofNat _ _ _ hk3]
      · intro i
        rw [List.getElem?_set, h3 i]
        by_cases e : k = i
        · subst e
          simp [hk3, List.getElem?_eq_getElem hk2]
        · have h4 : (i < k + 1) ↔ (i < k) := by omega
          simp [e, h4]
  obtain ⟨cells, h1, h2, h3⟩ := step n le_rfl
  have : cells = src := by
    apply List.ext_getElem?
    intro i
    rw [h3 i]
    by_cases hi : i < n
    · simp [hi]
    · have e1 : src.length ≤ i := by rw [hsrc.1]; omega
      have e2 : cur.length ≤ i := by rw [hcur.1]; omega
      simp [hi, List.getElem?_eq_none e1, List.getElem?_eq_none e2]
  unfold copyRows
  rw [hsrc.1, h1, this]

/-! ## Lemmas: the turn loop without signals -/

/-- The turn loop from an iteration `turn = t ≥ 1` on, when every `select` takes `default` and
every report call succeeds, for a family `I t` of properties the worker has at the head of
the iteration `turn = t`: the loop runs to `turn = N + 1`, reports the turns `t, …, N`, and
returns the previous-generation buffer and the turn counter of the last worker state. -/
theorem turnLoop_quiet_from {env : Env} (hs : ∀ t, env.select t = none)
    (hc : ∀ r, env.call r = true) (resp : Stubs.GameOfLifeResp) (N : Nat)
    (I : Nat → GolWorker → Prop)
    (hworld : ∀ t g, I t g → ∃ w, g.world = some w ∧ w.Turns = N)
    (hstep : ∀ t g, t ≤ N → I t g → ∃ g2 cells,
      GolWorker.Run { g with currentTurn := t } = some g2 ∧
      g2.world.bind World.GetCellsChanged = some cells ∧ I (t + 1) g2) :
    ∀ (k t : Nat) (g : GolWorker) (reps : List Stubs.TurnCompleteReq), 1 ≤ t →
      t + k = N + 1 → I t g → ∀ fuel, k < fuel →
      ∃ gf w more, I (N + 1) gf ∧ gf.world = some w ∧
        GolWorker.turnLoop env resp fuel t g reps
          = ⟨gf, reps ++ more, Outcome.returned false
              { World := { resp.World with Cells := w.PrevLattice.Cells },
                Turns := gf.currentTurn }⟩ ∧
        more.map (fun r => r.Turn) = (List.range k).map fun (i : Nat) => (t : Int) + i := by
  intro k
  induction k with
  | zero =>
    intro t g reps ht1 htk hI fuel hfuel
    obtain ⟨w, hw, hwT⟩ := hworld t g hI
    obtain ⟨f, rfl⟩ : ∃ f, fuel = f + 1 := ⟨fuel - 1, by omega⟩
    refine ⟨g, w, [], ?_, hw, ?_, by simp⟩
    · have : t = N + 1 := by omega
      rw [← this]; exact hI
    · have hgt : ¬ ((t : Int) ≤ w.Turns) := by rw [hwT]; omega
      rw [GolWorker.turnLoop]
      simp only [hw, if_neg hgt, List.append_nil]
  | succ k ih =>
    intro t g reps ht1 htk hI fuel hfuel
    obtain ⟨w, hw, hwT⟩ := hworld t g hI
    obtain ⟨f, rfl⟩ : ∃ f, fuel = f + 1 := ⟨fuel - 1, by omega⟩
    obtain ⟨g2, cells, hrun, hcells, hI2⟩ := hstep t g (by omega) hI
    have hle : (t : Int) ≤ w.Turns := by rw [hwT]; omega
    have hpos : (t : Int) > 0 := by omega
    obtain ⟨gf, wf, more, h1, h2, h3, h4⟩ :=
      ih (t + 1) g2 (reps ++ [{ Turn := t, Cells := cells }]) (by omega) (by omega) hI2 f
        (by omega)
    refine ⟨gf, wf, { Turn := t, Cells := cells } :: more, h1, h2, ?_, ?_⟩
    · rw [show reps ++ { Turn := (t : Int), Cells := cells } :: more
          = (reps ++ [{ Turn := (t : Int), Cells := cells }]) ++ more by simp, ← h3]
      rw [hw] at hrun
      rw [GolWorker.turnLoop]
      simp only [hw, if_pos hle, GolWorker.iteration, hs, hrun, if_pos hpos, hcells, hc]
      simp
    · rw [List.map_cons, h4, List.range_succ_eq_map]
      simp only [List.map_cons, List.map_map, Nat.cast_zero, add_zero]
      congr 1
      apply List.map_congr_left
      intro a _
      simp only [Function.comp, Nat.succ_eq_add_one]
      push_cast
      ring

/-- The turn loop of a whole run (from `turn = 0`) without signals: it reports the turns
`1, …, N`. -/
theorem turnLoop_quiet {env : Env} (hs : ∀ t, env.select t = none)
    (hc : ∀ r, env.call r = true) (resp : Stubs.GameOfLifeResp) (N : Nat)
    (I : Nat → GolWorker → Prop)
    (hworld : ∀ t g, I t g → ∃ w, g.world = some w ∧ w.Turns = N)
    (hstep : ∀ t g, t ≤ N → I t g → ∃ g2 cells,
      GolWorker.Run { g with currentTurn := t } = some g2 ∧
      g2.world.bind World.GetCellsChanged = some cells ∧ I (t + 1) g2)
    (g : GolWorker) (hI : I 0 g) (fuel : Nat) (hfuel : N + 1 < fuel) :
    ∃ gf w reports, I (N + 1) gf ∧ gf.world = some w ∧
      GolWorker.turnLoop env resp fuel 0 g []
        = ⟨gf, reports, Outcome.returned false
            { World := { resp.World with Cells := w.PrevLattice.Cells },
              Turns := gf.currentTurn }⟩ ∧
      reports.map (fun r => r.Turn) = turnsUpTo N := by
  obtain ⟨w, hw, hwT⟩ := hworld 0 g hI
  obtain ⟨f, rfl⟩ : ∃ f, fuel = f + 1 := ⟨fuel - 1, by omega⟩
  obtain ⟨g2, cells, hrun, hcells, hI2⟩ := hstep 0 g (by omega) hI
  obtain ⟨gf, wf, more, h1, h2, h3, h4⟩ :=
    turnLoop_quiet_from hs hc resp N I hworld hstep N 1 g2 [] le_rfl (by omega) hI2 f
      (by omega)
  refine ⟨gf, wf, more, h1, h2, ?_, ?_⟩
  · have hle : (0 : Int) ≤ w.Turns := by rw [hwT]; omega
    have hpos : ¬ ((0 : Int) > 0) := by omega
    simp only [Nat.cast_zero, hw] at hrun
    simp only [Nat.cast_one, List.nil_append] at h3
    rw [GolWorker.turnLoop]
    simp only [hw, if_pos hle, GolWorker.iteration, hs, hrun, if_neg hpos, zero_add]
    exact h3
  · rw [h4, turnsUpTo]
    apply List.map_congr_left
    intro a _
    push_cast
    ring

theorem generation_square {n : Nat} {g0 : List (List Bool)} (h : SquareCells n g0) (k : Nat) :
    SquareCells n (generation n g0 k) := by
  cases k with
  | zero => exact h
  | succ k => exact stepRule_square n _

theorem QuietInv_step {n N : Nat} {T : Int} {g0 : List (List Bool)} (t : Nat) (g : GolWorker)
    (hI : QuietInv n N T g0 t g) :
    ∃ g2 cells, GolWorker.Run { g with currentTurn := t } = some g2 ∧
      g2.world.bind World.GetCellsChanged = some cells ∧ QuietInv n N T g0 (t + 1) g2 := by
  obtain ⟨w, hw, hW, hH, hN, hT, hcur, hprev, hgen, _⟩ := hI
  obtain ⟨c, h1, h2, h3⟩ := RunWorld_total hW hH hcur hprev
  have hsq : Slice.Square n { w.PrevLattice with Cells := c } := ⟨hprev.1, hprev.2.1, h2⟩
  refine ⟨{ world := some { w with PrevLattice := w.CurLattice,
                                    CurLattice := { w.PrevLattice with Cells := c } },
            pasused := g.pasused, currentTurn := t },
    diffCells n c w.CurLattice.Cells, ?_, ?_, ?_⟩
  · simp [GolWorker.Run, hw, h1]
  · simp only [Option.some_bind]
    exact GetCellsChanged_square hW hH hsq hcur
  · refine ⟨_, rfl, hW, hH, hN, hT, hsq, hcur, ?_, ?_⟩
    · intro hT1
      refine ⟨?_, ?_⟩
      · show c = _
        rw [h3 (by rw [hT]; exact hT1), (hgen hT1).1]
        rfl
      · intro _
        simpa using (hgen hT1).1
    · intro _
      simp

/-- A signal-free run on a square grid: it returns without error, its reports carry the turns
`1, …, N`, the returned turn count is `N`, and with at least one thread the returned cells
are generation `N`. -/
theorem GameOfLife_quiet {env : Env} (hd : env.dial = true) (hs : ∀ t, env.select t = none)
    (hc : ∀ r, env.call r = true) (n N : Nat) (T : Int) (g0 : List (List Bool))
    (hsq : SquareCells n g0) (g : GolWorker) (resp : Stubs.GameOfLifeResp) :
    ∃ gf reports cells,
      GolWorker.GameOfLife env g
          { World := { Width := n, Height := n, Turns := N, Threads := T, Cells := g0 } } resp
        = ⟨gf, reports, Outcome.returned false
            { World := { resp.World with Cells := cells }, Turns := N }⟩ ∧
      reports.map (fun r => r.Turn) = turnsUpTo N ∧
      (1 ≤ T → cells = generation n g0 N) := by
  have hworld : ∀ t g, QuietInv n N T g0 t g → ∃ w, g.world = some w ∧ w.Turns = N := by
    rintro t g ⟨w, hw, _, _, hN, _⟩
    exact ⟨w, hw, hN⟩
  have h0 : QuietInv n N T g0 0
      { world := some (World.mk n n N T ⟨n, n, T, g0⟩
          ⟨n, n, T, List.replicate n (List.replicate n false)⟩),
        pasused := g.pasused, currentTurn := g.currentTurn } := by
    refine ⟨_, rfl, rfl, rfl, rfl, rfl, ⟨rfl, rfl, hsq⟩, ⟨rfl, rfl, replicate_square n⟩, ?_, ?_⟩
    · intro _
      exact ⟨rfl, fun h => absurd h (by omega)⟩
    · intro h
      exact absurd h (by omega)
  obtain ⟨gf, wf, reports, hI, hwf, hrun, hturns⟩ :=
    turnLoop_quiet hs hc resp N (QuietInv n N T g0) hworld
      (fun t g _ hI => QuietInv_step t g hI) _ h0 (((N : Int) + 1).toNat + 1) (by omega)
  obtain ⟨w, hw, _, _, _, _, _, _, hgen, hturn⟩ := hI
  rw [hwf] at hw
  cases hw
  refine ⟨gf, reports, wf.PrevLattice.Cells, ?_, hturns, ?_⟩
  · have hstart : GolWorker.start g (Stubs.GameOfLifeReq.mk ⟨n, n, N, T, g0⟩)
        = some (GolWorker.mk (some (World.mk n n N T ⟨n, n, T, g0⟩
            ⟨n, n, T, List.replicate n (List.replicate n false)⟩)) g.pasused g.currentTurn) := by
      simp only [GolWorker.start, NewSlice_square, Option.bind_eq_bind, Option.some_bind,
        copyRows_square (replicate_square n) hsq]
      rfl
    simp only [GolWorker.GameOfLife, hstart, hd, if_true]
    rw [hrun, hturn (by omega)]
    simp
  · intro hT
    simpa using (hgen hT).2 (by omega)

/-! ## The claims -/

/-- C1: on a square `n × n` world with at least one thread, one call of `GolWorker.Run`
succeeds; afterwards cell `(x, y)` of the current generation is alive if and only if `k = 3`,
or the cell was alive before the step and `k = 2`, where `k` counts the live cells among the
eight offsets read at `((x + dx) mod n, (y + dy) mod n)` in the generation before the step;
and the previous-generation buffer is the pre-step current buffer, unchanged. It holds for
every `n`, in particular for `n ≥ 2`. -/
theorem C1_Run_applies_step_rule (n : Nat) (g : GolWorker) (w : World)
    (hg : g.world = some w) (hW : w.Width = n) (hH : w.Height = n) (hT : 1 ≤ w.Threads)
    (hcur : w.CurLattice.Square n) (hprev : w.PrevLattice.Square n) :
    ∃ g2 w2, g.Run = some g2 ∧ g2.world = some w2 ∧ w2.PrevLattice = w.CurLattice ∧
      ∀ x y : Nat, x < n → y < n →
        ∃ b, w2.CurLattice.CellState x y = some b ∧
          (b = true ↔
            liveNeighbours n w.CurLattice.Cells x y = 3 ∨
              (w.CurLattice.CellState x y = some true ∧
                liveNeighbours n w.CurLattice.Cells x y = 2)) := by
  have hrun := RunWorld_square hW hH hT hcur hprev
  refine ⟨_, _, by simp [GolWorker.Run, hg, hrun]; rfl, rfl, rfl, ?_⟩
  intro x y hx hy
  have hsq : Slice.Square n
      { w.PrevLattice with Cells := stepRule n w.CurLattice.Cells } :=
    ⟨hprev.1, hprev.2.1, stepRule_square n _⟩
  refine ⟨ruleAlive n w.CurLattice.Cells x y, ?_, ?_⟩
  · rw [CellState_inside hsq hx hy]
    exact congrArg some (cellAt_stepRule _ hx hy)
  · rw [CellState_inside hcur hx hy]
    simp [ruleAlive]

/-- C1 at a 2 × 2 world with one live cell and one thread. -/
theorem C1_Run_applies_step_rule_witness :
    ∃ g2 w2, GolWorker.Run ⟨some (squareWorld 2 0 1 [(0, 0)]), false, 0⟩ = some g2 ∧
      g2.world = some w2 ∧ w2.PrevLattice = (squareWorld 2 0 1 [(0, 0)]).CurLattice ∧
      ∀ x y : Nat, x < 2 → y < 2 →
        ∃ b, w2.CurLattice.CellState x y = some b ∧
          (b = true ↔
            liveNeighbours 2 (squareWorld 2 0 1 [(0, 0)]).CurLattice.Cells x y = 3 ∨
              ((squareWorld 2 0 1 [(0, 0)]).CurLattice.CellState x y = some true ∧
                liveNeighbours 2 (squareWorld 2 0 1 [(0, 0)]).CurLattice.Cells x y = 2)) :=
  C1_Run_applies_step_rule 2 ⟨some (squareWorld 2 0 1 [(0, 0)]), false, 0⟩
    (squareWorld 2 0 1 [(0, 0)]) rfl rfl rfl (by decide) (by decide) (by decide)

/-- C2: a `GameOfLife` run on a square grid `g0` with budget `N ≥ 0` and at least one thread,
in which dialling succeeds, no signal arrives and every report call succeeds, returns without
error `Turns = N` and `World.Cells` equal to `g0` with the step rule applied exactly `N`
times. -/
theorem C2_run_returns_generation_N (n N : Nat) (T : Int) (hT : 1 ≤ T)
    (g0 : List (List Bool)) (hsq : SquareCells n g0) (env : Env) (hd : env.dial = true)
    (hs : ∀ t, env.select t = none) (hc : ∀ r, env.call r = true) (g : GolWorker)
    (resp : Stubs.GameOfLifeResp) :
    ∃ r, (GolWorker.GameOfLife env g
        { World := { Width := n, Height := n, Turns := N, Threads := T, Cells := g0 } }
        resp).outcome = Outcome.returned false r ∧
      r.Turns = N ∧ r.World.Cells = generation n g0 N := by
  obtain ⟨gf, reports, cells, h1, _, h3⟩ := GameOfLife_quiet hd hs hc n N T g0 hsq g resp
  rw [h1]
  exact ⟨_, rfl, rfl, h3 hT⟩

/-- C2 at the 8 × 8 blinker with budget 2 and 4 threads. -/
theorem C2_run_returns_generation_N_witness :
    ∃ r, (GolWorker.GameOfLife quietEnv NewGolWorker
        { World := { Width := (8 : Nat), Height := (8 : Nat), Turns := (2 : Nat), Threads := 4,
                     Cells := tableOf 8 [(3, 2), (3, 3), (3, 4)] } }
        zeroResp).outcome = Outcome.returned false r ∧
      r.Turns = (2 : Nat) ∧
      r.World.Cells = generation 8 (tableOf 8 [(3, 2), (3, 3), (3, 4)]) 2 :=
  C2_run_returns_generation_N 8 2 4 (by decide) (tableOf 8 [(3, 2), (3, 3), (3, 4)])
    (by decide) quietEnv rfl (fun _ => rfl) (fun _ => rfl) NewGolWorker zeroResp

/-- On a square grid: in a `GameOfLife` run with budget `N ≥ 0` (any thread count) in which
no signal arrives and every call succeeds, the run returns and the `Turn` values of the report
calls it issued are exactly `1, 2, …, N`, in that order: strictly increasing, and never 0. -/
theorem reported_turns_on_a_square_grid (n N : Nat) (T : Int) (g0 : List (List Bool))
    (hsq : SquareCells n g0) (env : Env) (hd : env.dial = true)
    (hs : ∀ t, env.select t = none) (hc : ∀ r, env.call r = true) (g : GolWorker)
    (resp : Stubs.GameOfLifeResp) :
    (∃ r, (GolWorker.GameOfLife env g
        { World := { Width := n, Height := n, Turns := N, Threads := T, Cells := g0 } }
        resp).outcome = Outcome.returned false r) ∧
      (GolWorker.GameOfLife env g
        { World := { Width := n, Height := n, Turns := N, Threads := T, Cells := g0 } }
        resp).reports.map (fun r => r.Turn) = turnsUpTo N ∧
      (turnsUpTo N).Pairwise (fun a b => a < b) ∧ (0 : Int) ∉ turnsUpTo N := by
  obtain ⟨gf, reports, cells, h1, h2, _⟩ := GameOfLife_quiet hd hs hc n N T g0 hsq g resp
  rw [h1]
  refine ⟨⟨_, rfl⟩, h2, ?_, ?_⟩
  · unfold turnsUpTo
    rw [List.pairwise_map]
    exact (List.pairwise_lt_range N).imp (fun h => by omega)
  · unfold turnsUpTo
    simp only [List.mem_map, List.mem_range, not_exists, not_and]
    intro i _
    omega

/-- C4: a pause taken at the iteration `turn = 1` of a run with budget 2 (3 × 3 grid, one
thread), followed by its resume, uses up that iteration: the run returns having issued one
report only, for turn 2, and none for turn 1. -/
theorem C4_pause_skips_the_report_of_its_turn :
    (GolWorker.GameOfLife pauseAtOneEnv NewGolWorker (squareReq 3 2 1 [(0, 0)])
        zeroResp).reports.map (fun r => r.Turn) = [2] ∧
      (GolWorker.GameOfLife quietEnv NewGolWorker (squareReq 3 2 1 [(0, 0)])
        zeroResp).reports.map (fun r => r.Turn) = [1, 2] := by
  decide

/-- C5: in the signal-free run with budget 1 on the 3 × 3 grid whose only live cell is
`(0, 0)`, the report with `Turn = 1` carries no cell (the difference between generations 1
and 2, both all dead), whereas generations 0 and 1 differ at `(0, 0)`. -/
theorem C5_report_carries_the_next_delta :
    (GolWorker.GameOfLife quietEnv NewGolWorker (squareReq 3 1 1 [(0, 0)]) zeroResp).reports
        = [{ Turn := 1, Cells := [] }] ∧
      diffCells 3 (generation 3 (tableOf 3 [(0, 0)]) 1) (generation 3 (tableOf 3 [(0, 0)]) 0)
        = [{ X := 0, Y := 0 }] ∧
      diffCells 3 (generation 3 (tableOf 3 [(0, 0)]) 2) (generation 3 (tableOf 3 [(0, 0)]) 1)
        = [] := by
  decide

/-- C6: in the signal-free run on the 3 × 3 grid whose only live cell is `(0, 0)`, the worker
left by the iteration `turn = 0` answers `AliveCellsCount` with `Turn = 0` and `Count = 0`,
whereas generation 0 has one live cell. -/
theorem C6_count_is_one_generation_ahead :
    (GolWorker.start NewGolWorker (squareReq 3 1 1 [(0, 0)])).map
        (fun g =>
          match GolWorker.iteration quietEnv zeroResp 0 g [] with
          | Step.next g1 _ => g1.AliveCellsCount
          | Step.done _ => none)
        = some (some { Count := 0, Turn := 0 }) ∧
      liveCount (generation 3 (tableOf 3 [(0, 0)]) 0) = 1 := by
  decide

/-- C7: `LocalControl.TurnComplete` with budget `l.turns`: a report with `Turn ≥ l.turns`
sends no event and leaves the controller unchanged; a report with `Turn < l.turns` sets the
turn counter to `Turn` and sends one `CellFlipped (Turn, cell)` per cell of the delta, in the
order of the delta, followed by exactly one `TurnComplete Turn`; so the report is discarded if
and only if `Turn ≥ l.turns`. -/
theorem C7_TurnComplete_guard (l : LocalControl) (req : Stubs.TurnCompleteReq) :
    (req.Turn ≥ l.turns → l.TurnComplete req = (l, [])) ∧
      (req.Turn < l.turns → l.TurnComplete req =
        ({ l with currentTurn := req.Turn },
         req.Cells.map (fun c => Event.CellFlipped req.Turn c)
           ++ [Event.TurnComplete req.Turn])) ∧
      ((l.TurnComplete req).2 = [] ↔ req.Turn ≥ l.turns) := by
  have hfold : ∀ (cs : List Cell) (acc : List Event),
      cs.foldl (fun evs c => evs ++ [Event.CellFlipped req.Turn c]) acc
        = acc ++ cs.map (fun c => Event.CellFlipped req.Turn c) := by
    intro cs
    induction cs with
    | nil => intro acc; simp
    | cons c cs ih => intro acc; rw [List.foldl_cons, ih]; simp
  by_cases h : req.Turn ≥ l.turns
  · have h2 : ¬ req.Turn < l.turns := by omega
    simp [LocalControl.TurnComplete, h, h2]
  · have h2 : req.Turn < l.turns := by omega
    simp [LocalControl.TurnComplete, h, h2, hfold]

/-- C7 at budget 2: the report for turn 2 is dropped, the report for turn 1 is forwarded. -/
theorem C7_TurnComplete_guard_witness :
    LocalControl.TurnComplete ⟨2, 0⟩ ⟨2, [⟨0, 0⟩, ⟨1, 2⟩]⟩ = (⟨2, 0⟩, []) ∧
      LocalControl.TurnComplete ⟨2, 0⟩ ⟨1, [⟨0, 0⟩, ⟨1, 2⟩]⟩
        = (⟨2, 1⟩, [Event.CellFlipped 1 ⟨0, 0⟩, Event.CellFlipped 1 ⟨1, 2⟩,
            Event.TurnComplete 1]) :=
  ⟨(C7_TurnComplete_guard ⟨2, 0⟩ ⟨2, [⟨0, 0⟩, ⟨1, 2⟩]⟩).1 (by decide),
   (C7_TurnComplete_guard ⟨2, 0⟩ ⟨1, [⟨0, 0⟩, ⟨1, 2⟩]⟩).2.1 (by decide)⟩

/-- C8: on the buffer `NewSlice` creates for width 2 and height 3, `CellState (0, 2)`, a
coordinate inside the grid, indexes out of range, and so does the write
`InitialCellState (0, 2)`; with width 3 and height 2 it is `CellState (2, 0)`. -/
theorem C8_CellState_panics_on_a_non_square_grid :
    (NewSlice { Turns := 0, Threads := 1, ImageWidth := 2, ImageHeight := 3 }).map
        (fun s => (s.Cells, s.CellState 0 2, s.InitialCellState 0 2 true))
        = some ([[false, false], [false, false], [false, false]], none, none) ∧
      (NewSlice { Turns := 0, Threads := 1, ImageWidth := 3, ImageHeight := 2 }).map
        (fun s => s.CellState 2 0) = some none := by
  decide

/-- C9: with 2 threads on a grid of height 2, `GolWorker.Run` spawns four tasks, two for row 0
and two for row 1: each row is written by two tasks. -/
theorem C9_Run_spawns_every_row_Threads_times :
    GolWorker.spawned (squareWorld 2 0 2 []) = [0, 0, 1, 1] ∧
      (GolWorker.spawned (squareWorld 2 0 2 [])).count 0 = 2 := by
  decide

/-- C10: on the 8 × 8 grid whose live cells are `(3,2)`, `(3,3)`, `(3,4)`, with 4 threads, one
generation step leaves exactly the live cells `(2,3)`, `(3,3)`, `(4,3)`, a second step exactly
`(3,2)`, `(3,3)`, `(3,4)`, and `GetAliveCellsCount` after the second step is 3. -/
theorem C10_blinker :
    (blinkerWorker.Run.bind fun g1 => g1.world.bind fun w1 => w1.CurLattice.aliveCells)
        = some [⟨2, 3⟩, ⟨3, 3⟩, ⟨4, 3⟩] ∧
      (blinkerWorker.Run.bind fun g1 => g1.Run.bind fun g2 => g2.world.bind fun w2 =>
        w2.CurLattice.aliveCells) = some [⟨3, 2⟩, ⟨3, 3⟩, ⟨3, 4⟩] ∧
      (blinkerWorker.Run.bind fun g1 => g1.Run.bind fun g2 => g2.world.bind fun w2 =>
        w2.GetAliveCellsCount) = some 3 := by
  decide

/-! ## Lemmas: patterns -/

theorem succ_mod {n x : Nat} (hx : x < n) : (x + 1) % n = succN n x := by
  unfold succN
  by_cases h : x + 1 = n
  · rw [if_pos h, h, Nat.mod_self]
  · rw [if_neg h, Nat.mod_eq_of_lt (by omega)]

theorem wrap_shift {n x : Nat} (hx : x < n) {d : Int} (hd : d = -1 ∨ d = 0 ∨ d = 1) :
    ((((x : Int) + d) % (n : Int)).toNat = shiftN n d x) ∧ shiftN n d x < n := by
  rcases hd with rfl | rfl | rfl
  · by_cases h0 : x = 0
    · subst h0
      have : ((((0 : Nat) : Int) + -1) % (n : Int)) = (n : Int) - 1 := by
        rw [← Int.add_emod_self, Int.emod_eq_of_lt (by omega) (by omega)]
        omega
      rw [this]
      simp only [shiftN, predN, if_true]
      omega
    · have : (((x : Int) + -1) % (n : Int)) = (x : Int) - 1 := by
        rw [Int.emod_eq_of_lt (by omega) (by omega)]
        omega
      rw [this]
      simp only [shiftN, predN, if_true, if_neg h0]
      omega
  · have : (((x : Int) + 0) % (n : Int)) = (x : Int) := by
      rw [add_zero, Int.emod_eq_of_lt (by omega) (by omega)]
    rw [this]
    simp [shiftN, hx]
  · by_cases hl : x + 1 = n
    · have : (((x : Int) + 1) % (n : Int)) = 0 := by
        have e : (x : Int) + 1 = (n : Int) := by omega
        rw [e, Int.emod_self]
      rw [this]
      simp only [shiftN, succN, if_pos hl]
      norm_num
      omega
    · have : (((x : Int) + 1) % (n : Int)) = (x : Int) + 1 := by
        rw [Int.emod_eq_of_lt (by omega) (by omega)]
      rw [this]
      simp only [shiftN, succN, if_neg hl]
      norm_num
      omega

/-- The rule at `(x, y)` on a grid whose state at `(a, b)` is `P a && Q b`. -/
theorem ruleAlive_product {n : Nat} {g : List (List Bool)} (P Q : Nat → Bool)
    (hcell : ∀ a b, a < n → b < n → cellAt g a b = (P a && Q b)) {x y : Nat} (hx : x < n)
    (hy : y < n) :
    ruleAlive n g x y
      = ruleOfTriples (P (predN n x)) (P x) (P (succN n x)) (Q (predN n y)) (Q y)
          (Q (succN n y)) := by
  have hw : ∀ d e : Int, (d = -1 ∨ d = 0 ∨ d = 1) → (e = -1 ∨ e = 0 ∨ e = 1) →
      wrapAt n g ((x : Int) + d) ((y : Int) + e) = (P (shiftN n d x) && Q (shiftN n e y)) := by
    intro d e hd he
    obtain ⟨h1, h2⟩ := wrap_shift hx hd
    obtain ⟨h3, h4⟩ := wrap_shift hy he
    unfold wrapAt
    rw [h1, h3]
    exact hcell _ _ h2 h4
  have s1 : shiftN n (-1) x = predN n x := by simp [shiftN]
  have s2 : shiftN n 1 x = succN n x := by simp [shiftN]
  have s3 : shiftN n (-1) y = predN n y := by simp [shiftN]
  have s4 : shiftN n 1 y = succN n y := by simp [shiftN]
  have s5 : shiftN n 0 x = x := by simp [shiftN]
  have s6 : shiftN n 0 y = y := by simp [shiftN]
  simp only [ruleAlive, liveNeighbours, offsets8, List.countP_cons, List.countP_nil,
    hw (-1) (-1) (by omega) (by omega), hw (-1) 0 (by omega) (by omega),
    hw (-1) 1 (by omega) (by omega), hw 0 (-1) (by omega) (by omega),
    hw 0 1 (by omega) (by omega), hw 1 (-1) (by omega) (by omega),
    hw 1 0 (by omega) (by omega), hw 1 1 (by omega) (by omega), hcell x y hx hy,
    s1, s2, s3, s4, s5, s6]
  generalize P (predN n x) = pl
  generalize P x = pc
  generalize P (succN n x) = pr
  generalize Q (predN n y) = ql
  generalize Q y = qc
  generalize Q (succN n y) = qr
  revert pl pc pr ql qc qr
  decide

/-- On a torus of side at least 4 the block coordinates `x0`, `(x0 + 1) mod n` seen from `x`:
if `x` is one of them, exactly one of its two neighbours is; if not, at most one is. -/
theorem block_triple {n x0 x : Nat} (hn : 4 ≤ n) (hx0 : x0 < n) (hx : x < n) :
    (inBlock n x0 x = true →
        (inBlock n x0 (predN n x) = true ∧ inBlock n x0 (succN n x) = false) ∨
        (inBlock n x0 (predN n x) = false ∧ inBlock n x0 (succN n x) = true)) ∧
      (inBlock n x0 x = false →
        ¬ (inBlock n x0 (predN n x) = true ∧ inBlock n x0 (succN n x) = true)) := by
  have hs : (x0 + 1 = n ∧ succN n x0 = 0) ∨ (x0 + 1 < n ∧ succN n x0 = x0 + 1) := by
    unfold succN; split_ifs <;> omega
  have hl : (x = 0 ∧ predN n x + 1 = n) ∨ (0 < x ∧ predN n x + 1 = x) := by
    unfold predN; split_ifs <;> omega
  have hr : (x + 1 = n ∧ succN n x = 0) ∨ (x + 1 < n ∧ succN n x = x + 1) := by
    unfold succN; split_ifs <;> omega
  simp only [inBlock, succ_mod hx0, decide_eq_true_eq, decide_eq_false_iff_not]
  generalize succN n x0 = s at hs ⊢
  generalize predN n x = l at hl ⊢
  generalize succN n x = r at hr ⊢
  omega

theorem block_rule :
    ∀ pl pc pr ql qc qr : Bool,
      ((pc = true → (pl = true ∧ pr = false) ∨ (pl = false ∧ pr = true)) ∧
        (pc = false → ¬ (pl = true ∧ pr = true))) →
      ((qc = true → (ql = true ∧ qr = false) ∨ (ql = false ∧ qr = true)) ∧
        (qc = false → ¬ (ql = true ∧ qr = true))) →
      ruleOfTriples pl pc pr ql qc qr = (pc && qc) := by
  intro pl pc pr ql qc qr hp hq
  cases pl <;> cases pc <;> cases pr <;> cases ql <;> cases qc <;> cases qr <;>
    first
    | rfl
    | (exfalso; revert hp hq; decide)

/-- C11: on a square `n × n` world with `n ≥ 4` and at least one thread whose live cells are
exactly the 2 × 2 block `{x0, (x0 + 1) mod n} × {y0, (y0 + 1) mod n}` (it may straddle the
edge), one call of `GolWorker.Run` succeeds and the new current generation has exactly those
four cells alive and every other cell dead. -/
theorem C11_block_is_a_fixed_point (n : Nat) (hn : 4 ≤ n) (x0 y0 : Nat) (hx0 : x0 < n)
    (hy0 : y0 < n) (g : GolWorker) (w : World) (hg : g.world = some w) (hW : w.Width = n)
    (hH : w.Height = n) (hT : 1 ≤ w.Threads) (hcur : w.CurLattice.Square n)
    (hprev : w.PrevLattice.Square n)
    (hlive : ∀ x y : Nat, x < n → y < n → w.CurLattice.CellState x y
      = some (decide ((x = x0 ∨ x = (x0 + 1) % n) ∧ (y = y0 ∨ y = (y0 + 1) % n)))) :
    ∃ g2 w2, g.Run = some g2 ∧ g2.world = some w2 ∧
      ∀ x y : Nat, x < n → y < n → w2.CurLattice.CellState x y
        = some (decide ((x = x0 ∨ x = (x0 + 1) % n) ∧ (y = y0 ∨ y = (y0 + 1) % n))) := by
  have hrun := RunWorld_square hW hH hT hcur hprev
  refine ⟨_, _, by simp [GolWorker.Run, hg, hrun]; rfl, rfl, ?_⟩
  intro x y hx hy
  have hsq : Slice.Square n
      { w.PrevLattice with Cells := stepRule n w.CurLattice.Cells } :=
    ⟨hprev.1, hprev.2.1, stepRule_square n _⟩
  have hcell : ∀ a b, a < n → b < n →
      cellAt w.CurLattice.Cells a b = (inBlock n x0 a && inBlock n y0 b) := by
    intro a b ha hb
    have := hlive a b ha hb
    rw [CellState_inside hcur ha hb] at this
    rw [Option.some.inj this]
    simp [inBlock, Bool.decide_and]
  show Slice.CellState { w.PrevLattice with Cells := stepRule n w.CurLattice.Cells } x y = _
  rw [CellState_inside hsq hx hy, cellAt_stepRule _ hx hy,
    ruleAlive_product (inBlock n x0) (inBlock n y0) hcell hx hy,
    block_rule _ _ _ _ _ _ (block_triple hn hx0 hx) (block_triple hn hy0 hy)]
  simp [inBlock, Bool.decide_and]

/-- C11 at the 4 × 4 world whose block starts at `(3, 3)` and wraps around both edges. -/
theorem C11_block_is_a_fixed_point_witness :
    ∃ g2 w2,
      GolWorker.Run ⟨some (squareWorld 4 0 2 [(3, 3), (0, 3), (3, 0), (0, 0)]), false, 0⟩
        = some g2 ∧ g2.world = some w2 ∧
      ∀ x y : Nat, x < 4 → y < 4 → w2.CurLattice.CellState x y
        = some (decide ((x = 3 ∨ x = (3 + 1) % 4) ∧ (y = 3 ∨ y = (3 + 1) % 4))) :=
  C11_block_is_a_fixed_point 4 (by decide) 3 3 (by decide) (by decide)
    ⟨some (squareWorld 4 0 2 [(3, 3), (0, 3), (3, 0), (0, 0)]), false, 0⟩
    (squareWorld 4 0 2 [(3, 3), (0, 3), (3, 0), (0, 0)]) rfl rfl rfl (by decide) (by decide)
    (by decide) (by intro x y hx hy; interval_cases x <;> interval_cases y <;> rfl)

theorem shift_ne {n : Nat} (x : Nat) (hn : 2 ≤ n) : predN n x ≠ x ∧ succN n x ≠ x := by
  unfold predN succN
  constructor <;> split_ifs <;> omega

/-- C12: on a square `n × n` world with `n ≥ 2` and at least one thread, one call of
`GolWorker.Run` succeeds and (a) if every cell was dead, every cell is dead afterwards;
(b) if exactly one cell `(x0, y0)` was alive, that cell is dead afterwards. -/
theorem C12_dead_stays_dead_and_lone_cell_dies (n : Nat) (hn : 2 ≤ n) (g : GolWorker)
    (w : World) (hg : g.world = some w) (hW : w.Width = n) (hH : w.Height = n)
    (hT : 1 ≤ w.Threads) (hcur : w.CurLattice.Square n) (hprev : w.PrevLattice.Square n) :
    ((∀ x y : Nat, x < n → y < n → w.CurLattice.CellState x y = some false) →
        ∃ g2 w2, g.Run = some g2 ∧ g2.world = some w2 ∧
          ∀ x y : Nat, x < n → y < n → w2.CurLattice.CellState x y = some false) ∧
      (∀ x0 y0 : Nat, x0 < n → y0 < n →
        (∀ x y : Nat, x < n → y < n →
          w.CurLattice.CellState x y = some (decide (x = x0 ∧ y = y0))) →
        ∃ g2 w2, g.Run = some g2 ∧ g2.world = some w2 ∧
          w2.CurLattice.CellState x0 y0 = some false) := by
  have hrun := RunWorld_square hW hH hT hcur hprev
  have hsq : Slice.Square n
      { w.PrevLattice with Cells := stepRule n w.CurLattice.Cells } :=
    ⟨hprev.1, hprev.2.1, stepRule_square n _⟩
  have hafter : ∀ x y : Nat, x < n → y < n →
      Slice.CellState { w.PrevLattice with Cells := stepRule n w.CurLattice.Cells } x y
        = some (ruleAlive n w.CurLattice.Cells x y) := by
    intro x y hx hy
    rw [CellState_inside hsq hx hy, cellAt_stepRule _ hx hy]
  constructor
  · intro hdead
    refine ⟨_, _, by simp [GolWorker.Run, hg, hrun]; rfl, rfl, ?_⟩
    intro x y hx hy
    have hcell : ∀ a b, a < n → b < n →
        cellAt w.CurLattice.Cells a b = ((fun _ => false) a && (fun _ => false) b) := by
      intro a b ha hb
      have := hdead a b ha hb
      rw [CellState_inside hcur ha hb] at this
      rw [Option.some.inj this]
      rfl
    show Slice.CellState { w.PrevLattice with Cells := stepRule n w.CurLattice.Cells } x y = _
    rw [hafter x y hx hy, ruleAlive_product _ _ hcell hx hy]
    rfl
  · intro x0 y0 hx0 hy0 hlone
    refine ⟨_, _, by simp [GolWorker.Run, hg, hrun]; rfl, rfl, ?_⟩
    have hcell : ∀ a b, a < n → b < n →
        cellAt w.CurLattice.Cells a b
          = ((fun a => decide (a = x0)) a && (fun b => decide (b = y0)) b) := by
      intro a b ha hb
      have := hlone a b ha hb
      rw [CellState_inside hcur ha hb] at this
      rw [Option.some.inj this]
      simp [Bool.decide_and]
    obtain ⟨hx1, hx2⟩ := shift_ne x0 hn
    obtain ⟨hy1, hy2⟩ := shift_ne y0 hn
    show Slice.CellState { w.PrevLattice with Cells := stepRule n w.CurLattice.Cells }
      x0 y0 = _
    rw [hafter x0 y0 hx0 hy0, ruleAlive_product _ _ hcell hx0 hy0]
    simp only [hx1, hx2, hy1, hy2, decide_False, decide_True]
    rfl

/-- C12 at the 2 × 2 world whose only live cell is `(0, 0)`: the cell is dead after one
step. -/
theorem C12_dead_stays_dead_and_lone_cell_dies_witness :
    ∃ g2 w2, GolWorker.Run ⟨some (squareWorld 2 0 1 [(0, 0)]), false, 0⟩ = some g2 ∧
      g2.world = some w2 ∧ w2.CurLattice.CellState ((0 : Nat) : Int) ((0 : Nat) : Int)
        = some false :=
  (C12_dead_stays_dead_and_lone_cell_dies 2 (by decide)
    ⟨some (squareWorld 2 0 1 [(0, 0)]), false, 0⟩ (squareWorld 2 0 1 [(0, 0)]) rfl rfl rfl
    (by decide) (by decide) (by decide)).2 0 0 (by decide) (by decide)
    (by intro x y hx hy; interval_cases x <;> interval_cases y <;> rfl)

/-! ## Lemmas: the cell delta -/

theorem mem_diffCells {n : Nat} {g1 g2 : List (List Bool)} {c : Cell} :
    c ∈ diffCells n g1 g2 ↔
      ∃ x y : Nat, x < n ∧ y < n ∧ c = { X := (x : Int), Y := (y : Int) } ∧
        cellAt g1 x y ≠ cellAt g2 x y := by
  simp only [diffCells, List.mem_flatMap, List.mem_map, List.mem_filter, List.mem_range,
    bne_iff_ne]
  constructor
  · rintro ⟨y, hy, x, ⟨hx, hne⟩, rfl⟩
    exact ⟨x, y, hx, hy, rfl, hne⟩
  · rintro ⟨x, y, hx, hy, rfl, hne⟩
    exact ⟨y, hy, x, ⟨hx, hne⟩, rfl⟩

theorem pairwise_diffCells (n : Nat) (g1 g2 : List (List Bool)) :
    (diffCells n g1 g2).Pairwise (fun a b => a.Y < b.Y ∨ (a.Y = b.Y ∧ a.X < b.X)) := by
  unfold diffCells
  rw [List.pairwise_flatMap]
  constructor
  · intro y _
    rw [List.pairwise_map]
    apply List.Pairwise.filter
    exact (List.pairwise_lt_range n).imp (fun h => Or.inr ⟨rfl, by simpa using h⟩)
  · refine (List.pairwise_lt_range n).imp ?_
    intro y1 y2 hlt a ha b hb
    simp only [List.mem_map] at ha hb
    obtain ⟨_, _, rfl⟩ := ha
    obtain ⟨_, _, rfl⟩ := hb
    exact Or.inl (by simpa using hlt)

theorem diffCells_self (n : Nat) (g : List (List Bool)) : diffCells n g g = [] := by
  simp [diffCells]

/-- C13: on a square world `GetCellsChanged` returns (without panic) a list that holds
exactly the coordinates `(x, y)`, `x, y < n`, at which `CurLattice` and `PrevLattice` differ,
strictly ordered by `y`, then `x` (so each coordinate occurs once); when the two buffers hold
the same cells the list is empty. -/
theorem C13_GetCellsChanged_is_the_difference (n : Nat) (w : World) (hW : w.Width = n)
    (hH : w.Height = n) (hcur : w.CurLattice.Square n) (hprev : w.PrevLattice.Square n) :
    ∃ cells, w.GetCellsChanged = some cells ∧
      (∀ c, c ∈ cells ↔ ∃ x y : Nat, x < n ∧ y < n ∧ c = { X := (x : Int), Y := (y : Int) } ∧
        w.CurLattice.CellState x y ≠ w.PrevLattice.CellState x y) ∧
      cells.Pairwise (fun a b => a.Y < b.Y ∨ (a.Y = b.Y ∧ a.X < b.X)) ∧
      cells.Nodup ∧
      (w.CurLattice.Cells = w.PrevLattice.Cells → cells = []) := by
  refine ⟨_, GetCellsChanged_square hW hH hcur hprev, ?_, pairwise_diffCells n _ _, ?_, ?_⟩
  · intro c
    rw [mem_diffCells]
    constructor
    · rintro ⟨x, y, hx, hy, rfl, hne⟩
      refine ⟨x, y, hx, hy, rfl, ?_⟩
      rw [CellState_inside hcur hx hy, CellState_inside hprev hx hy]
      simpa using hne
    · rintro ⟨x, y, hx, hy, rfl, hne⟩
      refine ⟨x, y, hx, hy, rfl, ?_⟩
      rw [CellState_inside hcur hx hy, CellState_inside hprev hx hy] at hne
      simpa using hne
  · refine (pairwise_diffCells n _ _).imp ?_
    intro a b h e
    subst e
    omega
  · intro h
    rw [h]
    exact diffCells_self n _

/-- C13 at the 2 × 2 world with current generation `{(0, 0)}` and an all-dead previous
buffer. -/
theorem C13_GetCellsChanged_is_the_difference_witness :
    ∃ cells, (squareWorld 2 0 1 [(0, 0)]).GetCellsChanged = some cells ∧
      (∀ c, c ∈ cells ↔ ∃ x y : Nat, x < 2 ∧ y < 2 ∧ c = { X := (x : Int), Y := (y : Int) } ∧
        (squareWorld 2 0 1 [(0, 0)]).CurLattice.CellState x y
          ≠ (squareWorld 2 0 1 [(0, 0)]).PrevLattice.CellState x y) ∧
      cells.Pairwise (fun a b => a.Y < b.Y ∨ (a.Y = b.Y ∧ a.X < b.X)) ∧
      cells.Nodup ∧
      ((squareWorld 2 0 1 [(0, 0)]).CurLattice.Cells
        = (squareWorld 2 0 1 [(0, 0)]).PrevLattice.Cells → cells = []) :=
  C13_GetCellsChanged_is_the_difference 2 (squareWorld 2 0 1 [(0, 0)]) rfl rfl (by decide)
    (by decide)

/-- C14: on a worker with a world loaded, `KeyPress` with key `s` returns nil; the response
carries the cells of the current-generation buffer and the turn counter; the worker is left
as it was (turn counter, pause flag, both buffers) and nothing is sent on any channel. -/
theorem C14_KeyPress_s_is_a_pure_snapshot (accepted : Bool) (g : GolWorker) (w : World)
    (hw : g.world = some w) (resp : Stubs.KeyPressResp) :
    ∃ r, GolWorker.KeyPress accepted g 's' resp = KeyOutcome.returned g r [] ∧
      r.World.Cells = w.CurLattice.Cells ∧ r.Turn = g.currentTurn ∧ r.Pause = resp.Pause := by
  refine ⟨⟨{ resp.World with Cells := w.CurLattice.Cells }, g.currentTurn, resp.Pause⟩, ?_,
    rfl, rfl, rfl⟩
  simp [GolWorker.KeyPress, hw]

/-- C14 at the blinker worker. -/
theorem C14_KeyPress_s_is_a_pure_snapshot_witness :
    ∃ r, GolWorker.KeyPress false blinkerWorker 's' zeroKeyResp
        = KeyOutcome.returned blinkerWorker r [] ∧
      r.World.Cells = (squareWorld 8 2 4 [(3, 2), (3, 3), (3, 4)]).CurLattice.Cells ∧
      r.Turn = blinkerWorker.currentTurn ∧ r.Pause = zeroKeyResp.Pause :=
  C14_KeyPress_s_is_a_pure_snapshot false blinkerWorker
    (squareWorld 8 2 4 [(3, 2), (3, 3), (3, 4)]) rfl zeroKeyResp

/-- C15: a `KeyPress` with key `p` whose send on the pause channel is received returns nil
with `Pause` the negation of the pause flag before the call and `Turn` the turn counter, stores
the negated flag, sends on the pause channel only, and leaves the turn counter and the world
as they were; a second such call on the worker it leaves restores the worker. -/
theorem C15_KeyPress_p_toggles_the_pause_flag (g : GolWorker) (resp : Stubs.KeyPressResp) :
    (∃ g2 r, GolWorker.KeyPress true g 'p' resp
        = KeyOutcome.returned g2 r [Chan.pauseChannel] ∧
      r.Pause = !g.pasused ∧ r.Turn = g.currentTurn ∧ g2.pasused = !g.pasused ∧
      g2.currentTurn = g.currentTurn ∧ g2.world = g.world ∧
      ∃ r2, GolWorker.KeyPress true g2 'p' resp
        = KeyOutcome.returned g r2 [Chan.pauseChannel] ∧ r2.Pause = g.pasused) := by
  refine ⟨{ g with pasused := !g.pasused }, ⟨resp.World, g.currentTurn, !g.pasused⟩, ?_, rfl,
    rfl, rfl, rfl, rfl, ⟨resp.World, g.currentTurn, g.pasused⟩, ?_, rfl⟩
  · simp [GolWorker.KeyPress]
  · simp [GolWorker.KeyPress]

/-- C16: on the 5 × 5 grid with the blinker `(2,1)`, `(2,2)`, `(2,3)`, budget 2 and one
thread, a pause taken at the iteration `turn = 1` and followed by its resume makes the run
return `Turns = 2` with generation 1, whereas the signal-free run returns `Turns = 2` with
generation 2, a different grid; a pause taken at the last iteration `turn = 2` makes the run
return `Turns = 1`. -/
theorem C16_pause_consumes_its_turn :
    (GolWorker.GameOfLife (pauseAtEnv 1) NewGolWorker
        (squareReq 5 2 1 [(2, 1), (2, 2), (2, 3)]) zeroResp).outcome
        = Outcome.returned false
            { World := { zeroResp.World with
                Cells := generation 5 (tableOf 5 [(2, 1), (2, 2), (2, 3)]) 1 },
              Turns := 2 } ∧
      (GolWorker.GameOfLife quietEnv NewGolWorker
        (squareReq 5 2 1 [(2, 1), (2, 2), (2, 3)]) zeroResp).outcome
        = Outcome.returned false
            { World := { zeroResp.World with
                Cells := generation 5 (tableOf 5 [(2, 1), (2, 2), (2, 3)]) 2 },
              Turns := 2 } ∧
      generation 5 (tableOf 5 [(2, 1), (2, 2), (2, 3)]) 1
        ≠ generation 5 (tableOf 5 [(2, 1), (2, 2), (2, 3)]) 2 ∧
      (GolWorker.GameOfLife (pauseAtEnv 2) NewGolWorker
        (squareReq 5 2 1 [(2, 1), (2, 2), (2, 3)]) zeroResp).outcome
        = Outcome.returned false
            { World := { zeroResp.World with
                Cells := generation 5 (tableOf 5 [(2, 1), (2, 2), (2, 3)]) 1 },
              Turns := 1 } := by
  decide

/-- C17: at every loop head of the turn loop (a worker with a world, loop variable `turn`
within the budget, any reports issued so far) whose `select` takes the soft-reset signal, the
run returns at once with a nil error: no report is added, the worker is left without world,
with turn counter 0 and pause flag false, and the returned `Turns` is that turn counter, 0;
`World` of the response is not written. -/
theorem C17_soft_reset_returns_at_once (env : Env) (resp : Stubs.GameOfLifeResp) (fuel : Nat)
    (turn : Int) (g : GolWorker) (w : World) (reports : List Stubs.TurnCompleteReq)
    (hw : g.world = some w) (hle : turn ≤ w.Turns)
    (hsel : env.select turn = some Signal.reset) :
    ∃ g2, GolWorker.turnLoop env resp (fuel + 1) turn g reports
        = ⟨g2, reports, Outcome.returned false { resp with Turns := g2.currentTurn }⟩ ∧
      g2.world = none ∧ g2.currentTurn = 0 ∧ g2.pasused = false := by
  refine ⟨{ world := none, pasused := false, currentTurn := 0 }, ?_, rfl, rfl, rfl⟩
  rw [GolWorker.turnLoop]
  simp only [hw, if_pos hle, GolWorker.iteration, hsel]

/-- C17 at the blinker worker, paused flag set, with the reset taken at `turn = 1` after one
report. -/
theorem C17_soft_reset_returns_at_once_witness :
    ∃ g2, GolWorker.turnLoop
        { dial := true, select := fun _ => some Signal.reset, call := fun _ => true } zeroResp
        (0 + 1) 1 { blinkerWorker with pasused := true, currentTurn := 1 }
        [{ Turn := 1, Cells := [] }]
        = ⟨g2, [{ Turn := 1, Cells := [] }],
            Outcome.returned false { zeroResp with Turns := g2.currentTurn }⟩ ∧
      g2.world = none ∧ g2.currentTurn = 0 ∧ g2.pasused = false :=
  C17_soft_reset_returns_at_once
    { dial := true, select := fun _ => some Signal.reset, call := fun _ => true } zeroResp 0 1
    { blinkerWorker with pasused := true, currentTurn := 1 }
    (squareWorld 8 2 4 [(3, 2), (3, 3), (3, 4)]) [{ Turn := 1, Cells := [] }] rfl (by decide)
    rfl

/-! ## Lemmas: the callback service -/

theorem TurnComplete_events (l : LocalControl) (req : Stubs.TurnCompleteReq) :
    (l.TurnComplete req).1.turns = l.turns ∧
      (l.TurnComplete req).2.filterMap Event.turnCompleted
        = (if req.Turn < l.turns then [req.Turn] else []) ∧
      ∀ e ∈ (l.TurnComplete req).2, e.CompletedTurns < l.turns := by
  have hfold : ∀ (cs : List Cell) (acc : List Event),
      cs.foldl (fun evs c => evs ++ [Event.CellFlipped req.Turn c]) acc
        = acc ++ cs.map (fun c => Event.CellFlipped req.Turn c) := by
    intro cs
    induction cs with
    | nil => intro acc; simp
    | cons c cs ih => intro acc; rw [List.foldl_cons, ih]; simp
  by_cases h : req.Turn ≥ l.turns
  · have h2 : ¬ req.Turn < l.turns := by omega
    simp [LocalControl.TurnComplete, h, h2]
  · have h2 : req.Turn < l.turns := by omega
    simp only [LocalControl.TurnComplete, if_neg h, hfold, List.nil_append, if_pos h2]
    refine ⟨trivial, ?_, ?_⟩
    · rw [List.filterMap_append, List.filterMap_map]
      have : List.filterMap (Event.turnCompleted ∘ fun c => Event.CellFlipped req.Turn c)
          req.Cells = [] := by
        rw [List.filterMap_eq_nil_iff]
        intro c _
        rfl
      rw [this]
      rfl
    · intro e he
      simp only [List.mem_append, List.mem_map, List.mem_singleton] at he
      rcases he with ⟨c, _, rfl⟩ | rfl
      · exact h2
      · exact h2

/-- The events of a sequence of report calls: the `TurnComplete` events are those of the
reports below the budget, in order, and no event carries a turn at or above the budget. -/
theorem deliver_events (l : LocalControl) (reports : List Stubs.TurnCompleteReq) :
    (l.deliver reports).2.filterMap Event.turnCompleted
        = (reports.map fun r => r.Turn).filter (fun t => decide (t < l.turns)) ∧
      ∀ e ∈ (l.deliver reports).2, e.CompletedTurns < l.turns := by
  have gen : ∀ (rs : List Stubs.TurnCompleteReq) (st : LocalControl × List Event),
      st.1.turns = l.turns →
      ∃ evs, (rs.foldl (fun st req =>
          ((st.1.TurnComplete req).1, st.2 ++ (st.1.TurnComplete req).2)) st).2 = st.2 ++ evs ∧
        evs.filterMap Event.turnCompleted
          = (rs.map fun r => r.Turn).filter (fun t => decide (t < l.turns)) ∧
        ∀ e ∈ evs, e.CompletedTurns < l.turns := by
    intro rs
    induction rs with
    | nil => intro st _; exact ⟨[], by simp, by simp, by simp⟩
    | cons r rs ih =>
      intro st hst
      obtain ⟨h1, h2, h3⟩ := TurnComplete_events st.1 r
      obtain ⟨evs, g1, g2, g3⟩ :=
        ih ((st.1.TurnComplete r).1, st.2 ++ (st.1.TurnComplete r).2) (by rw [h1, hst])
      refine ⟨(st.1.TurnComplete r).2 ++ evs, ?_, ?_, ?_⟩
      · rw [List.foldl_cons, g1]
        simp
      · rw [List.filterMap_append, h2, g2, hst]
        by_cases hr : r.Turn < l.turns
        · simp [hr]
        · simp [hr]
      · intro e he
        rcases List.mem_append.mp he with h | h
        · rw [← hst]; exact h3 e h
        · exact g3 e h
  obtain ⟨evs, g1, g2, g3⟩ := gen reports (l, []) rfl
  have : (l.deliver reports).2 = evs := by
    unfold LocalControl.deliver
    rw [g1]
    simp
  rw [this]
  exact ⟨g2, g3⟩

theorem turnsUpTo_filter (N : Nat) (hN : 1 ≤ N) :
    (turnsUpTo N).filter (fun t => decide (t < (N : Int))) = turnsUpTo (N - 1) := by
  obtain ⟨M, rfl⟩ : ∃ M, N = M + 1 := ⟨N - 1, by omega⟩
  simp only [turnsUpTo, List.range_succ, List.map_append, List.filter_append,
    Nat.add_sub_cancel, List.map_cons, List.map_nil]
  have h1 : List.filter (fun t => decide (t < ((M + 1 : Nat) : Int)))
      (List.map (fun (i : Nat) => (i : Int) + 1) (List.range M))
      = List.map (fun (i : Nat) => (i : Int) + 1) (List.range M) := by
    rw [List.filter_eq_self]
    intro t ht
    simp only [List.mem_map, List.mem_range] at ht
    obtain ⟨i, hi, rfl⟩ := ht
    simp
    omega
  rw [h1]
  simp

/-- On a square grid: when the reports of a signal-free run with budget `N ≥ 1` are
handled in order by `LocalControl.TurnComplete` configured with the same budget `N`, the
`TurnComplete` events sent are exactly those of the turns `1, …, N - 1`, in increasing order,
and no event at all carries the turn `N`: the report for turn `N` is dropped. -/
theorem final_turn_report_is_dropped_on_a_square_grid (n N : Nat) (hN : 1 ≤ N) (T : Int)
    (g0 : List (List Bool)) (hsq : SquareCells n g0) (env : Env) (hd : env.dial = true)
    (hs : ∀ t, env.select t = none) (hc : ∀ r, env.call r = true) (g : GolWorker)
    (resp : Stubs.GameOfLifeResp) (l : LocalControl) (hl : l.turns = N) :
    (l.deliver (GolWorker.GameOfLife env g
        { World := { Width := n, Height := n, Turns := N, Threads := T, Cells := g0 } }
        resp).reports).2.filterMap Event.turnCompleted = turnsUpTo (N - 1) ∧
      (∀ e ∈ (l.deliver (GolWorker.GameOfLife env g
        { World := { Width := n, Height := n, Turns := N, Threads := T, Cells := g0 } }
        resp).reports).2, e.CompletedTurns < N) ∧
      (N : Int) ∈ (GolWorker.GameOfLife env g
        { World := { Width := n, Height := n, Turns := N, Threads := T, Cells := g0 } }
        resp).reports.map (fun r => r.Turn) := by
  obtain ⟨gf, reports, cells, h1, h2, _⟩ := GameOfLife_quiet hd hs hc n N T g0 hsq g resp
  rw [h1]
  obtain ⟨e1, e2⟩ := deliver_events l reports
  refine ⟨?_, ?_, ?_⟩
  · rw [e1, h2, hl, turnsUpTo_filter N hN]
  · intro e he
    rw [← hl]
    exact e2 e he
  · show (N : Int) ∈ reports.map (fun r => r.Turn)
    rw [h2, turnsUpTo]
    simp only [List.mem_map, List.mem_range]
    exact ⟨N - 1, by omega, by omega⟩

/-- A sequence of row tasks that names only rows below `n` and names each of them at least
once leaves the step rule applied to the read buffer. -/
theorem tasks_cover {n : Nat} {cur prev : Slice} (hcur : cur.Square n) (hprev : prev.Square n)
    (ts : List Int) (hts : ∀ t ∈ ts, ∃ k : Nat, k < n ∧ t = k)
    (hcov : ∀ k : Nat, k < n → (k : Int) ∈ ts) :
    ts.foldlM (fun p y => rowTask n cur y p) prev
      = some { prev with Cells := stepRule n cur.Cells } := by
  obtain ⟨cells, h1, h2, h3⟩ := tasks_square hcur ts hts prev hprev
  have : cells = stepRule n cur.Cells := by
    apply squareCells_ext h2 (stepRule_square n _)
    intro a b ha hb
    rw [h3 a b ha, cellAt_stepRule _ ha hb]
    simp [hcov b hb]
  rw [h1, this]

theorem spawnInner_upTo (n : Nat) (passes : Nat) :
    ∀ k : Nat, k < n → ∃ k2 : Nat, k2 ≤ n ∧ (1 ≤ passes → k < k2) ∧
      World.spawnInner n passes k (upTo k) = ((k2 : Int), upTo k2) := by
  induction passes with
  | zero =>
    intro k hk
    exact ⟨k, by omega, by omega, rfl⟩
  | succ j ih =>
    intro k hk
    have hup : upTo ((k : Int) + 1) = upTo k ++ [(k : Int)] := by
      have := upTo_succ k
      push_cast at this
      exact this
    by_cases hlast : k + 1 = n
    · refine ⟨k + 1, by omega, by omega, ?_⟩
      have h1 : (k : Int) + 1 = (n : Int) := by omega
      rw [World.spawnInner, if_pos h1]
      push_cast
      rw [hup]
    · obtain ⟨k2, g1, g2, g3⟩ := ih (k + 1) (by omega)
      have h1 : ¬ ((k : Int) + 1 = (n : Int)) := by omega
      refine ⟨k2, g1, ?_, ?_⟩
      · intro _
        have : k + 1 ≤ k2 := by
          by_cases hj : 1 ≤ j
          · have := g2 hj; omega
          · have hj0 : j = 0 := by omega
            subst hj0
            simp only [World.spawnInner, Prod.mk.injEq] at g3
            have := g3.1
            omega
        omega
      · rw [World.spawnInner, if_neg h1, ← hup]
        push_cast at g3
        exact g3

/-- With at least one thread the outer loop of `World.Run` ends after at most `n + 1`
condition checks, having spawned one task per row, in row order. -/
theorem spawnOuter_upTo (n : Nat) (threads : Int) (hT : 1 ≤ threads) :
    ∀ (fuel k : Nat), k ≤ n → n - k < fuel →
      World.spawnOuter n threads fuel k (upTo k) = some (upTo n) := by
  intro fuel
  induction fuel with
  | zero => intro k _ h; omega
  | succ f ih =>
    intro k hk hf
    by_cases hlt : k < n
    · obtain ⟨k2, g1, g2, g3⟩ := spawnInner_upTo n threads.toNat k hlt
      have hk2 := g2 (by omega)
      have h1 : (k : Int) < (n : Int) := by omega
      rw [World.spawnOuter, if_pos h1, g3]
      exact ih k2 g1 (by omega)
    · have hkn : k = n := by omega
      have h1 : ¬ ((k : Int) < (n : Int)) := by omega
      rw [World.spawnOuter, if_neg h1, hkn]

/-- C19: on a square world with at least one thread, `GolWorker.Run` and `World.Run`, run as
sequential programs, both end without panic (`World.Run` within `n + 1` checks of its outer
loop condition) in the world the single-pass step leaves: the buffers swapped, the written
one holding `NextStep` of every cell of the read one. The two buffers of the result are the
same for every other thread count `T2 ≥ 1`. -/
theorem C19_Run_refines_the_single_pass_step (n : Nat) (w : World) (hW : w.Width = n)
    (hH : w.Height = n) (hT : 1 ≤ w.Threads) (hcur : w.CurLattice.Square n)
    (hprev : w.PrevLattice.Square n) :
    ∃ w2, singlePass w = some w2 ∧ GolWorker.RunWorld w = some w2 ∧
      (∀ fuel, n < fuel → World.Run fuel w = RunResult.done w2) ∧
      (∀ x y : Nat, x < n → y < n → ∃ b,
        w2.CurLattice.CellState x y = some b ∧ w.CurLattice.NextStep x y = some b) ∧
      w2.PrevLattice = w.CurLattice ∧
      ∀ T2 : Int, 1 ≤ T2 → ∃ w3,
        GolWorker.RunWorld { w with Threads := T2 } = some w3 ∧
        (∀ fuel, n < fuel → World.Run fuel { w with Threads := T2 } = RunResult.done w3) ∧
        w3.CurLattice = w2.CurLattice ∧ w3.PrevLattice = w2.PrevLattice := by
  have hall : ∀ t ∈ upTo (n : Int), ∃ k : Nat, k < n ∧ t = k := fun t ht => mem_upTo.mp ht
  have hcov : ∀ k : Nat, k < n → (k : Int) ∈ upTo (n : Int) :=
    fun k hk => mem_upTo.mpr ⟨k, hk, rfl⟩
  have htasks := tasks_cover hcur hprev (upTo (n : Int)) hall hcov
  have hworld : ∀ (T2 : Int), 1 ≤ T2 → ∀ fuel, n < fuel →
      World.Run fuel { w with Threads := T2 }
        = RunResult.done { w with
            Threads := T2, PrevLattice := w.CurLattice,
            CurLattice := { w.PrevLattice with Cells := stepRule n w.CurLattice.Cells } } := by
    intro T2 hT2 fuel hfuel
    have hsp := spawnOuter_upTo n T2 hT2 fuel 0 (by omega) (by omega)
    simp only [Nat.cast_zero, upTo, Int.toNat_zero, List.range_zero, List.map_nil] at hsp
    simp only [World.Run, hH, hW, hsp]
    rw [show List.map Int.ofNat (List.range (n : Int).toNat) = upTo (n : Int) from rfl, htasks]
  refine ⟨{ w with PrevLattice := w.CurLattice,
                   CurLattice := { w.PrevLattice with Cells := stepRule n w.CurLattice.Cells } },
    ?_, RunWorld_square hW hH hT hcur hprev, ?_, ?_, rfl, ?_⟩
  · have : singlePass w = (do
        let prev ← (upTo w.Height).foldlM (fun p y => rowTask w.Width w.CurLattice y p)
          w.PrevLattice
        pure { w with PrevLattice := w.CurLattice, CurLattice := prev }) := rfl
    rw [this, hH, hW, htasks]
    rfl
  · intro fuel hfuel
    exact hworld w.Threads hT fuel hfuel
  · intro x y hx hy
    have hsq : Slice.Square n
        { w.PrevLattice with Cells := stepRule n w.CurLattice.Cells } :=
      ⟨hprev.1, hprev.2.1, stepRule_square n _⟩
    refine ⟨ruleAlive n w.CurLattice.Cells x y, ?_, NextStep_square hcur hx hy⟩
    show Slice.CellState { w.PrevLattice with Cells := stepRule n w.CurLattice.Cells } x y = _
    rw [CellState_inside hsq hx hy, cellAt_stepRule _ hx hy]
  · intro T2 hT2
    refine ⟨_, RunWorld_square (w := { w with Threads := T2 }) hW hH hT2 hcur hprev, ?_, rfl,
      rfl⟩
    intro fuel hfuel
    exact hworld T2 hT2 fuel hfuel

/-- C19 at the 2 × 2 world with one live cell and 3 threads. -/
theorem C19_Run_refines_the_single_pass_step_witness :
    ∃ w2, singlePass (squareWorld 2 0 3 [(0, 0)]) = some w2 ∧
      GolWorker.RunWorld (squareWorld 2 0 3 [(0, 0)]) = some w2 ∧
      (∀ fuel, 2 < fuel → World.Run fuel (squareWorld 2 0 3 [(0, 0)]) = RunResult.done w2) ∧
      (∀ x y : Nat, x < 2 → y < 2 → ∃ b,
        w2.CurLattice.CellState x y = some b ∧
          (squareWorld 2 0 3 [(0, 0)]).CurLattice.NextStep x y = some b) ∧
      w2.PrevLattice = (squareWorld 2 0 3 [(0, 0)]).CurLattice ∧
      ∀ T2 : Int, 1 ≤ T2 → ∃ w3,
        GolWorker.RunWorld { squareWorld 2 0 3 [(0, 0)] with Threads := T2 } = some w3 ∧
        (∀ fuel, 2 < fuel →
          World.Run fuel { squareWorld 2 0 3 [(0, 0)] with Threads := T2 }
            = RunResult.done w3) ∧
        w3.CurLattice = w2.CurLattice ∧ w3.PrevLattice = w2.PrevLattice :=
  C19_Run_refines_the_single_pass_step 2 (squareWorld 2 0 3 [(0, 0)]) rfl rfl (by decide)
    (by decide) (by decide)

end DDT
